import Mathlib

/-!
Verification development for the mdwiki core: path validation, the wiki tree
scan and navigation rendering, and the single-writer mutation pipeline.

Paths are modelled as their parsed component lists (mirroring
`async_std::path::Path::components`), the content root (`<config>/src`) as a
finite filesystem tree, the git repository as the list of commits in creation
order, and the actor pipeline as a state-passing function that additionally
records a trace of its effects.
-/

namespace Mdwiki

/-- A parsed path component, as produced by `Path::components` (Unix, no
prefix components). -/
inductive PComp where
  | rootDir
  | curDir
  | parentDir
  | normal (s : String)
deriving DecidableEq, Repr

/-- A path is its list of parsed components. -/
abbrev WPath := List PComp

/-- Model of `utils::path_is_simple`: every component is a `Normal` name. -/
def path_is_simple (p : WPath) : Bool :=
  p.all fun c => match c with
    | .normal _ => true
    | _ => false

/-- The `Normal` component names of a path. For a simple path this is exactly
its component list. -/
def normals (p : WPath) : List String :=
  p.filterMap fun c => match c with
    | .normal s => some s
    | _ => none

/-- Rendering of one component, used for `path.display()` in messages. -/
def compRender (c : PComp) : String :=
  match c with
  | .rootDir => ""
  | .curDir => "."
  | .parentDir => ".."
  | .normal s => s

/-- Model of `path.display()` / `to_string_lossy()` of a parsed path. -/
def pathDisplay (p : WPath) : String :=
  String.intercalate "/" (p.map compRender)

/-- Model of `utils::RESERVED_NAMES`. -/
def RESERVED_NAMES : List String := ["SUMMARY.md", "index.md"]

/-- Model of `utils::RESERVED_PREFIXES`. -/
def RESERVED_PREFIXES : List String := ["new", "edit", "upload", "images"]

/-- Model of `Path::ends_with` for a single-component suffix: the final component is
`Normal name`. -/
def pathEndsWithName (p : WPath) (name : String) : Bool :=
  p.getLast? == some (PComp.normal name)

/-- Model of `Path::starts_with` for a single-component pattern: the first component is
`Normal name`. -/
def pathStartsWithName (p : WPath) (name : String) : Bool :=
  p.head? == some (PComp.normal name)

/-- Model of `utils::is_reserved_name`. -/
def is_reserved_name (p : WPath) : Bool :=
  RESERVED_NAMES.any (fun r => pathEndsWithName p r)
    || RESERVED_PREFIXES.any (fun r => pathStartsWithName p r)

/-- Split a character list at its last `.`: returns the part before and after
that dot. `none` when there is no dot. -/
def lastDotSplit : List Char → Option (List Char × List Char)
  | [] => none
  | c :: rest =>
    match lastDotSplit rest with
    | some (pre, post) => some (c :: pre, post)
    | none => if c = '.' then some ([], rest) else none

/-- Model of `OsStr` extension semantics of a file name: the part after the last dot,
unless the name has no dot or its only dot is the leading one. -/
def extOf (s : String) : Option String :=
  match lastDotSplit s.toList with
  | none => none
  | some ([], _) => none
  | some (_ :: _, post) => some (String.mk post)

/-- Model of `Path::file_stem` semantics on a file name: the part before the last dot,
with the same hidden-file exception as `extOf`. -/
def stemOf (s : String) : String :=
  match lastDotSplit s.toList with
  | none => s
  | some ([], _) => s
  | some (pre, _) => String.mk pre

/-- Model of `Path::file_name`: the final component when it is `Normal`. -/
def fileName (p : WPath) : Option String :=
  match p.getLast? with
  | some (.normal s) => some s
  | _ => none

/-- Model of `Path::extension`. -/
def extension (p : WPath) : Option String := (fileName p).bind extOf

/-- Model of `Path::file_stem`. -/
def file_stem (p : WPath) : Option String := (fileName p).map stemOf

/-- Model of `path.ancestors().count()`: the path itself plus each parent. For a
relative path this is the component count plus one. -/
def ancestorsCount (p : WPath) : Nat :=
  if p.head? = some PComp.rootDir then p.length else p.length + 1

/-- Model of `wiki::WikiResponse`. -/
inductive WikiResponse where
  | OK (msg : Option String)
  | BadRequest (msg : Option String)
  | NotAllowed (msg : Option String)
  | NotFound (msg : Option String)
  | Error (msg : Option String)
deriving DecidableEq, Repr

/-- Model of `WikiResponse::is_ok`. -/
def WikiResponse.is_ok : WikiResponse → Bool
  | .OK _ => true
  | _ => false

/-- The content root (`<config>/src`) as a tree: a regular file with its
content, or a directory with its entries in creation/enumeration order. -/
inductive FSNode where
  | file (content : String)
  | dir (entries : List (String × FSNode))

/-- Find a directory entry by name (first match, as directory entries are
unique on a real filesystem). -/
def findEntry : List (String × FSNode) → String → Option FSNode
  | [], _ => none
  | e :: rest, n => if e.1 == n then some e.2 else findEntry rest n

/-- Resolve a relative path under a node. -/
def lookupFS : FSNode → List String → Option FSNode
  | node, [] => some node
  | .dir entries, n :: rest =>
    match findEntry entries n with
    | some sub => lookupFS sub rest
    | none => none
  | .file _, _ :: _ => none

/-- Model of `full_path.is_file()` relative to the content root. -/
def isFile (fs : FSNode) (p : List String) : Bool :=
  match lookupFS fs p with
  | some (.file _) => true
  | _ => false

/-- Model of `full_path.is_dir()` relative to the content root. -/
def isDir (fs : FSNode) (p : List String) : Bool :=
  match lookupFS fs p with
  | some (.dir _) => true
  | _ => false

/-- Content of the regular file at `p`, when one exists. -/
def readFile (fs : FSNode) (p : List String) : Option String :=
  match lookupFS fs p with
  | some (.file c) => some c
  | _ => none

/-- Replace the (first) entry named `n` by `node`. -/
def updateEntry : List (String × FSNode) → String → FSNode → List (String × FSNode)
  | [], _, _ => []
  | e :: rest, n, node =>
    if e.1 == n then (n, node) :: rest else e :: updateEntry rest n node

/-- Model of `fs::write`: create or truncate the regular file at `p`. Fails (`none`,
an OS error in the source) when a directory sits at `p`, or an intermediate
path component is missing or is a regular file. -/
def writeFile : FSNode → List String → String → Option FSNode
  | .file _, _, _ => none
  | .dir _, [], _ => none
  | .dir entries, [n], c =>
    match findEntry entries n with
    | some (.dir _) => none
    | some (.file _) => some (.dir (updateEntry entries n (.file c)))
    | none => some (.dir (entries ++ [(n, .file c)]))
  | .dir entries, n :: p :: ps, c =>
    match findEntry entries n with
    | some sub =>
      match writeFile sub (p :: ps) c with
      | some sub2 => some (.dir (updateEntry entries n sub2))
      | none => none
    | none => none

/-- Model of `fs::create_dir_all`: create every missing directory along `p`. Fails when
a regular file is in the way. -/
def mkdirAll : FSNode → List String → Option FSNode
  | .file _, _ => none
  | .dir entries, [] => some (.dir entries)
  | .dir entries, n :: rest =>
    match findEntry entries n with
    | some sub =>
      match mkdirAll sub rest with
      | some sub2 => some (.dir (updateEntry entries n sub2))
      | none => none
    | none =>
      match mkdirAll (.dir []) rest with
      | some sub => some (.dir (entries ++ [(n, sub)]))
      | none => none

/-- Model of `Config::safe_path`. -/
def safe_path (p : WPath) : WikiResponse :=
  if !path_is_simple p then
    .BadRequest (some ("Path " ++ pathDisplay p ++
      " must be simple i.e. in the form filename.extension or directory/filename.extension"))
  else if ((extension p).map (fun ext => ext != "md")).getD true then
    .BadRequest (some ("File " ++ pathDisplay p ++
      " needs to be a markdown file with .md extension"))
  else if is_reserved_name p then
    .BadRequest (some ("Path " ++ pathDisplay p ++
      " contains reserved filenames/directories"))
  else .OK none

/-- Model of `Config::can_edit` (the existence check reads the content root `fs`). -/
def can_edit (fs : FSNode) (p : WPath) : WikiResponse :=
  match safe_path p with
  | .OK _ =>
    if !isFile fs (normals p) then
      .NotFound (some ("No file named " ++ pathDisplay p))
    else .OK none
  | r => r

/-- Model of `Config::can_create`. -/
def can_create (fs : FSNode) (p : WPath) : WikiResponse :=
  match safe_path p with
  | .OK _ =>
    if ancestorsCount p > 5 then
      .BadRequest (some ("Path " ++ pathDisplay p ++
        " contains too many nested directories"))
    else if isFile fs (normals p) then
      .BadRequest (some ("File " ++ pathDisplay p ++ " already exists"))
    else .OK none
  | r => r

theorem ext_check_false_iff (p : WPath) :
    (((extension p).map (fun ext => ext != "md")).getD true = false) ↔
      extension p = some "md" := by
  cases h : extension p with
  | none => simp
  | some a => simp [bne]

theorem safe_path_ok_iff (p : WPath) :
    safe_path p = .OK none ↔
      (path_is_simple p = true ∧ extension p = some "md" ∧
        is_reserved_name p = false) := by
  unfold safe_path
  split_ifs with h1 h2 h3
  · simp only [Bool.not_eq_true'] at h1
    simp [h1]
  · constructor
    · intro h; cases h
    · rintro ⟨-, hmd, -⟩
      rw [(ext_check_false_iff p).mpr hmd] at h2
      cases h2
  · constructor
    · intro h; cases h
    · rintro ⟨-, -, hres⟩
      rw [hres] at h3
      cases h3
  · simp only [Bool.not_eq_true, Bool.not_eq_false'] at h1
    constructor
    · intro _
      refine ⟨h1, ?_, by simpa using h3⟩
      exact (ext_check_false_iff p).mp (by simpa using h2)
    · intro _; rfl

theorem safe_path_not_ok (p : WPath) (h : safe_path p ≠ .OK none) :
    ∃ m, safe_path p = .BadRequest (some m) := by
  unfold safe_path at *
  split_ifs at * <;> first | exact ⟨_, rfl⟩ | exact absurd rfl h

/-- C1: `can_create(p)` returns OK iff p is simple, has the `.md` extension,
is not reserved, its ancestor count is within the fixed limit of 5, and no
regular file exists at the resolved location; every failing conjunct yields
`BadRequest` with a reason message. -/
theorem c1_can_create_characterization (fs : FSNode) (p : WPath) :
    (can_create fs p = .OK none ↔
      (path_is_simple p = true ∧ extension p = some "md" ∧
        is_reserved_name p = false ∧ ancestorsCount p ≤ 5 ∧
        isFile fs (normals p) = false)) ∧
    (can_create fs p ≠ .OK none →
      ∃ m, can_create fs p = .BadRequest (some m)) := by
  constructor
  · cases hsp : safe_path p with
    | OK m =>
      have hm : m = none := by
        unfold safe_path at hsp
        split_ifs at hsp <;> cases hsp <;> rfl
      subst hm
      have hs := (safe_path_ok_iff p).mp hsp
      simp only [can_create, hsp]
      split_ifs with h1 h2
      · constructor
        · intro h; cases h
        · rintro ⟨-, -, -, hd, -⟩
          omega
      · constructor
        · intro h; cases h
        · rintro ⟨-, -, -, -, hf⟩
          rw [hf] at h2
          cases h2
      · constructor
        · intro _
          exact ⟨hs.1, hs.2.1, hs.2.2, by omega, by simpa using h2⟩
        · intro _; rfl
    | BadRequest m =>
      simp only [can_create, hsp]
      constructor
      · intro h; cases h
      · rintro ⟨h1, h2, h3, -, -⟩
        have : safe_path p = .OK none := (safe_path_ok_iff p).mpr ⟨h1, h2, h3⟩
        rw [this] at hsp
        cases hsp
    | NotAllowed m =>
      exfalso
      unfold safe_path at hsp
      split_ifs at hsp <;> cases hsp
    | NotFound m =>
      exfalso
      unfold safe_path at hsp
      split_ifs at hsp <;> cases hsp
    | Error m =>
      exfalso
      unfold safe_path at hsp
      split_ifs at hsp <;> cases hsp
  · intro hne
    rcases h : safe_path p with m | m | m | m | m
    · have hm : m = none := by
        unfold safe_path at h
        split_ifs at h <;> cases h <;> rfl
      subst hm
      simp only [can_create, h] at hne ⊢
      split_ifs at hne ⊢ with h1 h2
      · exact ⟨_, rfl⟩
      · exact ⟨_, rfl⟩
      · exact absurd rfl hne
    · rcases safe_path_not_ok p (by rw [h]; intro hc; cases hc) with ⟨mm, hmm⟩
      refine ⟨mm, ?_⟩
      simp only [can_create, h]
      rw [h] at hmm
      exact hmm
    · exfalso; unfold safe_path at h; split_ifs at h <;> cases h
    · exfalso; unfold safe_path at h; split_ifs at h <;> cases h
    · exfalso; unfold safe_path at h; split_ifs at h <;> cases h

/-- Witness for C1 at a concrete input: creating `page.md` in an empty
content root passes every check. -/
theorem c1_witness :
    can_create (FSNode.dir []) [PComp.normal "page.md"] = .OK none :=
  (c1_can_create_characterization (FSNode.dir []) [PComp.normal "page.md"]).1.mpr
    (by decide)

/-- C2: `can_edit(p)` returns OK iff p is simple, has the `.md` extension, is
not reserved, and a regular file exists at the resolved location; when only
the file is missing it returns `NotFound`, and `BadRequest` when a
`safe_path` conjunct fails. -/
theorem c2_can_edit_characterization (fs : FSNode) (p : WPath) :
    (can_edit fs p = .OK none ↔
      (path_is_simple p = true ∧ extension p = some "md" ∧
        is_reserved_name p = false ∧ isFile fs (normals p) = true)) ∧
    (safe_path p = .OK none → isFile fs (normals p) = false →
      ∃ m, can_edit fs p = .NotFound (some m)) ∧
    (safe_path p ≠ .OK none →
      ∃ m, can_edit fs p = .BadRequest (some m)) := by
  refine ⟨?_, ?_, ?_⟩
  · cases hsp : safe_path p with
    | OK m =>
      have hm : m = none := by
        unfold safe_path at hsp
        split_ifs at hsp <;> cases hsp <;> rfl
      subst hm
      have hs := (safe_path_ok_iff p).mp hsp
      simp only [can_edit, hsp]
      split_ifs with h1
      · simp only [Bool.not_eq_true'] at h1
        constructor
        · intro h; cases h
        · rintro ⟨-, -, -, hf⟩
          rw [hf] at h1
          cases h1
      · simp only [Bool.not_eq_false] at h1
        constructor
        · intro _
          exact ⟨hs.1, hs.2.1, hs.2.2, by simpa using h1⟩
        · intro _; rfl
    | BadRequest m =>
      simp only [can_edit, hsp]
      constructor
      · intro h; cases h
      · rintro ⟨h1, h2, h3, -⟩
        have : safe_path p = .OK none := (safe_path_ok_iff p).mpr ⟨h1, h2, h3⟩
        rw [this] at hsp
        cases hsp
    | NotAllowed m =>
      exfalso; unfold safe_path at hsp; split_ifs at hsp <;> cases hsp
    | NotFound m =>
      exfalso; unfold safe_path at hsp; split_ifs at hsp <;> cases hsp
    | Error m =>
      exfalso; unfold safe_path at hsp; split_ifs at hsp <;> cases hsp
  · intro hok hmiss
    simp only [can_edit, hok]
    rw [hmiss]
    exact ⟨_, rfl⟩
  · intro hne
    rcases safe_path_not_ok p hne with ⟨m, hm⟩
    simp only [can_edit, hm]
    exact ⟨m, rfl⟩

/-- Witness for C2 at a concrete input: editing an existing `page.md` passes
every check. -/
theorem c2_witness :
    can_edit (FSNode.dir [("page.md", FSNode.file "x")])
      [PComp.normal "page.md"] = .OK none :=
  (c2_can_edit_characterization (FSNode.dir [("page.md", FSNode.file "x")])
      [PComp.normal "page.md"]).1.mpr (by decide)

/-! ## Wiki tree scan (`Config::get_wiki_tree`) -/

/-- Model of `config::WikiTree`: a scanned file, or a directory with its children,
each carrying its path relative to the content root. -/
inductive WikiTree where
  | file (path : List String)
  | dir (path : List String) (children : List WikiTree)

/-- Model of `WikiTree::path`. -/
def WikiTree.path : WikiTree → List String
  | .file p => p
  | .dir p _ => p

/-- The code points of a string, the order key used by byte-wise `OsStr`
comparison (UTF-8 preserves code-point order). -/
def natsOf (s : String) : List Nat := s.toList.map Char.toNat

/-- Lexicographic comparison of code-point lists. -/
def natsCmp : List Nat → List Nat → Ordering
  | [], [] => .eq
  | [], _ :: _ => .lt
  | _ :: _, [] => .gt
  | a :: as, b :: bs =>
    if a < b then .lt else if b < a then .gt else natsCmp as bs

/-- Model of `OsStr::cmp` of two names. -/
def strCmp (a b : String) : Ordering := natsCmp (natsOf a) (natsOf b)

/-- Model of `Path::cmp`: lexicographic, component-wise. -/
def pathCmp : List String → List String → Ordering
  | [], [] => .eq
  | [], _ :: _ => .lt
  | _ :: _, [] => .gt
  | x :: xs, y :: ys =>
    match strCmp x y with
    | .eq => pathCmp xs ys
    | o => o

/-- Non-strict path order, `a.path().cmp(b.path()) != Greater`. -/
def pathLe (a b : List String) : Bool :=
  match pathCmp a b with
  | .gt => false
  | _ => true

/-- The comparison used by `children.sort_by(|a, b| a.path().cmp(b.path()))`. -/
def treeLe (a b : WikiTree) : Prop := pathLe a.path b.path = true

instance : DecidableRel treeLe := fun a b =>
  inferInstanceAs (Decidable (pathLe a.path b.path = true))

mutual
/-- Model of `Config::get_wiki_tree::visit`, acting on the modelled filesystem; the
first argument is the path relative to the content root. -/
def visit (rel : List String) : FSNode → Option WikiTree
  | .dir entries =>
    if rel.head? = some "images" then none
    else some (.dir rel (List.insertionSort treeLe (visitEntries rel entries)))
  | .file _ =>
    if ((rel.getLast?.bind extOf).map (fun ext => ext != "md")).getD true then
      none
    else if ((rel.getLast?.map stemOf).map (fun st => st == "README")).getD true then
      none
    else if is_reserved_name (rel.map PComp.normal) then none
    else some (.file rel)

/-- The `read_dir` loop of `visit`: scan each entry in enumeration order and
keep the ones the scan includes. -/
def visitEntries (rel : List String) : List (String × FSNode) → List WikiTree
  | [] => []
  | e :: rest =>
    match visit (rel ++ [e.1]) e.2 with
    | some t => t :: visitEntries rel rest
    | none => visitEntries rel rest
end

/-- Model of `Config::get_wiki_tree`: scan from the content root (the source unwraps
the root result, which is present whenever the root is a directory). -/
def get_wiki_tree (fs : FSNode) : Option WikiTree := visit [] fs

mutual
/-- All nodes of a tree: the node itself and every descendant. -/
def nodesOf : WikiTree → List WikiTree
  | .file p => [.file p]
  | .dir p cs => .dir p cs :: nodesOfList cs

def nodesOfList : List WikiTree → List WikiTree
  | [] => []
  | t :: ts => nodesOf t ++ nodesOfList ts
end

/-- The immediate children of a node are sorted by relative path. -/
def childrenSortedAt : WikiTree → Prop
  | .file _ => True
  | .dir _ cs => List.Sorted treeLe cs

/-- The node is not (inside) the reserved assets directory `images`. -/
def notAssetsNode (t : WikiTree) : Prop := t.path.head? ≠ some "images"

/-- A file leaf is never a directory's own index file `README.md`. -/
def notIndexLeaf : WikiTree → Prop
  | .file p => p.getLast? ≠ some "README.md"
  | .dir _ _ => True

theorem natsCmp_eq_iff : ∀ (a b : List Nat), natsCmp a b = .eq ↔ a = b
  | [], [] => by simp [natsCmp]
  | [], _ :: _ => by simp [natsCmp]
  | _ :: _, [] => by simp [natsCmp]
  | a :: as, b :: bs => by
    unfold natsCmp
    by_cases h1 : a < b
    · simp only [if_pos h1]
      constructor
      · intro h; cases h
      · intro h
        injection h with h h'
        omega
    · by_cases h2 : b < a
      · simp only [if_neg h1, if_pos h2]
        constructor
        · intro h; cases h
        · intro h
          injection h with h h'
          omega
      · have hab : a = b := by omega
        subst hab
        simp only [if_neg h1, if_neg h2]
        rw [natsCmp_eq_iff as bs]
        simp

theorem natsCmp_gt_iff_lt : ∀ (a b : List Nat), natsCmp a b = .gt ↔ natsCmp b a = .lt
  | [], [] => by simp [natsCmp]
  | [], _ :: _ => by simp [natsCmp]
  | _ :: _, [] => by simp [natsCmp]
  | a :: as, b :: bs => by
    unfold natsCmp
    by_cases h1 : a < b
    · simp [h1, Nat.lt_asymm h1]
    · by_cases h2 : b < a
      · simp [h1, h2]
      · simp only [if_neg h1, if_neg h2]
        exact natsCmp_gt_iff_lt as bs

theorem natsCmp_lt_trans :
    ∀ (a b c : List Nat), natsCmp a b = .lt → natsCmp b c = .lt → natsCmp a c = .lt
  | [], [], _, hab, _ => by cases hab
  | [], _ :: _, [], _, hbc => by cases hbc
  | [], _ :: _, _ :: _, _, _ => by simp [natsCmp]
  | _ :: _, [], _, hab, _ => by cases hab
  | _ :: _, _ :: _, [], _, hbc => by cases hbc
  | a :: as, b :: bs, c :: cs, hab, hbc => by
    unfold natsCmp at hab hbc ⊢
    by_cases h1 : a < b
    · by_cases h3 : b < c
      · simp [Nat.lt_trans h1 h3]
      · by_cases h4 : c < b
        · rw [if_neg h3, if_pos h4] at hbc; cases hbc
        · have hbceq : b = c := by omega
          subst hbceq
          simp [h1]
    · by_cases h2 : b < a
      · rw [if_neg h1, if_pos h2] at hab; cases hab
      · have habeq : a = b := by omega
        subst habeq
        rw [if_neg h1, if_neg h2] at hab
        by_cases h3 : a < c
        · simp [h3]
        · by_cases h4 : c < a
          · rw [if_neg h3, if_pos h4] at hbc; cases hbc
          · rw [if_neg h3, if_neg h4] at hbc ⊢
            exact natsCmp_lt_trans as bs cs hab hbc

theorem strCmp_eq_iff (a b : String) : strCmp a b = .eq ↔ natsOf a = natsOf b :=
  natsCmp_eq_iff (natsOf a) (natsOf b)

theorem strCmp_congr_left {x y : String} (h : strCmp x y = .eq) (z : String) :
    strCmp x z = strCmp y z := by
  unfold strCmp
  rw [(strCmp_eq_iff x y).mp h]

theorem strCmp_congr_right {y z : String} (h : strCmp y z = .eq) (x : String) :
    strCmp x y = strCmp x z := by
  unfold strCmp
  rw [(strCmp_eq_iff y z).mp h]

theorem strCmp_gt_iff_lt (a b : String) : strCmp a b = .gt ↔ strCmp b a = .lt :=
  natsCmp_gt_iff_lt (natsOf a) (natsOf b)

theorem strCmp_lt_trans {a b c : String}
    (h1 : strCmp a b = .lt) (h2 : strCmp b c = .lt) : strCmp a c = .lt :=
  natsCmp_lt_trans (natsOf a) (natsOf b) (natsOf c) h1 h2

theorem pathCmp_gt_iff_lt : ∀ (a b : List String), pathCmp a b = .gt ↔ pathCmp b a = .lt
  | [], [] => by simp [pathCmp]
  | [], _ :: _ => by simp [pathCmp]
  | _ :: _, [] => by simp [pathCmp]
  | x :: xs, y :: ys => by
    unfold pathCmp
    cases hxy : strCmp x y with
    | eq =>
      have hyx : strCmp y x = .eq := by
        have := strCmp_congr_left hxy x
        rw [← this]
        exact (strCmp_eq_iff x x).mpr rfl
      rw [hyx]
      exact pathCmp_gt_iff_lt xs ys
    | lt =>
      have hyx : strCmp y x = .gt := (strCmp_gt_iff_lt y x).mpr hxy
      rw [hyx]
      simp
    | gt =>
      have hyx : strCmp y x = .lt := (strCmp_gt_iff_lt x y).mp hxy
      rw [hyx]
      simp

theorem pathCmp_congr_left :
    ∀ {x y : List String}, pathCmp x y = .eq → ∀ z, pathCmp x z = pathCmp y z
  | [], [], _, z => rfl
  | [], _ :: _, h, _ => by cases h
  | _ :: _, [], h, _ => by cases h
  | x :: xs, y :: ys, h, z => by
    unfold pathCmp at h
    cases hxy : strCmp x y with
    | lt => rw [hxy] at h; cases h
    | gt => rw [hxy] at h; cases h
    | eq =>
      rw [hxy] at h
      cases z with
      | nil => rfl
      | cons z zs =>
        show pathCmp (x :: xs) (z :: zs) = pathCmp (y :: ys) (z :: zs)
        unfold pathCmp
        rw [strCmp_congr_left hxy z]
        cases hyz : strCmp y z with
        | eq => exact pathCmp_congr_left h zs
        | lt => rfl
        | gt => rfl

theorem pathCmp_congr_right :
    ∀ {y z : List String}, pathCmp y z = .eq → ∀ x, pathCmp x y = pathCmp x z
  | [], [], _, x => rfl
  | [], _ :: _, h, _ => by cases h
  | _ :: _, [], h, _ => by cases h
  | y :: ys, z :: zs, h, x => by
    unfold pathCmp at h
    cases hyz : strCmp y z with
    | lt => rw [hyz] at h; cases h
    | gt => rw [hyz] at h; cases h
    | eq =>
      rw [hyz] at h
      cases x with
      | nil => rfl
      | cons x xs =>
        show pathCmp (x :: xs) (y :: ys) = pathCmp (x :: xs) (z :: zs)
        unfold pathCmp
        rw [strCmp_congr_right hyz x]
        cases hxz : strCmp x z with
        | eq => exact pathCmp_congr_right h xs
        | lt => rfl
        | gt => rfl

theorem pathCmp_lt_trans :
    ∀ (a b c : List String), pathCmp a b = .lt → pathCmp b c = .lt → pathCmp a c = .lt
  | [], [], _, hab, _ => by cases hab
  | [], _ :: _, [], _, hbc => by cases hbc
  | [], _ :: _, _ :: _, _, _ => by simp [pathCmp]
  | _ :: _, [], _, hab, _ => by cases hab
  | _ :: _, _ :: _, [], _, hbc => by cases hbc
  | a :: as, b :: bs, c :: cs, hab, hbc => by
    unfold pathCmp at hab hbc ⊢
    cases h1 : strCmp a b with
    | gt => rw [h1] at hab; cases hab
    | eq =>
      rw [h1] at hab
      rw [strCmp_congr_left h1 c]
      cases h3 : strCmp b c with
      | gt => rw [h3] at hbc; cases hbc
      | lt => rfl
      | eq =>
        rw [h3] at hbc
        exact pathCmp_lt_trans as bs cs hab hbc
    | lt =>
      cases h3 : strCmp b c with
      | gt => rw [h3] at hbc; cases hbc
      | lt => rw [strCmp_lt_trans h1 h3]
      | eq => rw [← strCmp_congr_right h3 a, h1]

theorem pathLe_total (a b : List String) : pathLe a b = true ∨ pathLe b a = true := by
  unfold pathLe
  cases h : pathCmp a b with
  | lt => left; rfl
  | eq => left; rfl
  | gt =>
    right
    rw [(pathCmp_gt_iff_lt a b).mp h]

theorem pathLe_trans {a b c : List String}
    (h1 : pathLe a b = true) (h2 : pathLe b c = true) : pathLe a c = true := by
  unfold pathLe at h1 h2 ⊢
  cases hab : pathCmp a b with
  | gt => rw [hab] at h1; cases h1
  | eq => rw [pathCmp_congr_left hab c]; exact h2
  | lt =>
    cases hbc : pathCmp b c with
    | gt => rw [hbc] at h2; cases h2
    | eq => rw [← pathCmp_congr_right hbc a, hab]
    | lt => rw [pathCmp_lt_trans a b c hab hbc]

instance : IsTotal WikiTree treeLe :=
  ⟨fun a b => pathLe_total a.path b.path⟩

instance : IsTrans WikiTree treeLe :=
  ⟨fun _ _ _ h1 h2 => pathLe_trans h1 h2⟩

theorem mem_nodesOfList {n : WikiTree} :
    ∀ {ts : List WikiTree}, n ∈ nodesOfList ts ↔ ∃ t ∈ ts, n ∈ nodesOf t := by
  intro ts
  induction ts with
  | nil => simp [nodesOfList]
  | cons t ts ih =>
    simp only [nodesOfList, List.mem_append, ih, List.mem_cons]
    constructor
    · rintro (h | ⟨t', ht', hn⟩)
      · exact ⟨t, Or.inl rfl, h⟩
      · exact ⟨t', Or.inr ht', hn⟩
    · rintro ⟨t', ht' | ht', hn⟩
      · subst ht'; exact Or.inl hn
      · exact Or.inr ⟨t', ht', hn⟩

theorem head_ne_images_of_not_reserved (rel : List String)
    (h : is_reserved_name (rel.map PComp.normal) = false) :
    rel.head? ≠ some "images" := by
  intro hh
  have hs : pathStartsWithName (rel.map PComp.normal) "images" = true := by
    unfold pathStartsWithName
    rw [List.head?_map, hh]
    rfl
  unfold is_reserved_name at h
  rw [Bool.or_eq_false_iff] at h
  have := List.any_eq_false.mp h.2 "images" (by simp [RESERVED_PREFIXES])
  rw [hs] at this
  exact this rfl

theorem last_ne_index_of_stem (rel : List String)
    (h : ((rel.getLast?.map stemOf).map (fun st => st == "README")).getD true = false) :
    rel.getLast? ≠ some "README.md" := by
  intro hh
  rw [hh] at h
  simp only [Option.map_some', Option.getD_some] at h
  exact absurd h (by decide)

/-- The conjunction of the three scan invariants at one node. -/
def scanInv (n : WikiTree) : Prop :=
  childrenSortedAt n ∧ notAssetsNode n ∧ notIndexLeaf n

mutual
theorem visit_inv : ∀ (rel : List String) (fs : FSNode) (t : WikiTree),
    visit rel fs = some t → ∀ n ∈ nodesOf t, scanInv n
  | rel, .file c, t, h => by
    unfold visit at h
    split_ifs at h with h1 h2 h3
    injection h with h'
    subst h'
    intro n hn
    simp only [nodesOf, List.mem_singleton] at hn
    subst hn
    refine ⟨trivial, ?_, ?_⟩
    · exact head_ne_images_of_not_reserved rel (by simpa using h3)
    · exact last_ne_index_of_stem rel (by simpa using h2)
  | rel, .dir entries, t, h => by
    unfold visit at h
    split_ifs at h with h1
    injection h with h'
    subst h'
    intro n hn
    simp only [nodesOf] at hn
    rcases List.mem_cons.mp hn with hself | hrest
    · subst hself
      refine ⟨?_, ?_, trivial⟩
      · exact List.sorted_insertionSort treeLe (visitEntries rel entries)
      · simpa [notAssetsNode, WikiTree.path] using h1
    · rcases mem_nodesOfList.mp hrest with ⟨t', ht'mem, hn'⟩
      have ht'' : t' ∈ visitEntries rel entries :=
        (List.Perm.mem_iff (List.perm_insertionSort treeLe
          (visitEntries rel entries))).mp ht'mem
      exact visitEntries_inv rel entries t' ht'' n hn'

theorem visitEntries_inv : ∀ (rel : List String) (es : List (String × FSNode)) (t : WikiTree),
    t ∈ visitEntries rel es → ∀ n ∈ nodesOf t, scanInv n
  | rel, [], t, h => by simp [visitEntries] at h
  | rel, e :: rest, t, h => by
    unfold visitEntries at h
    cases hv : visit (rel ++ [e.1]) e.2 with
    | some t' =>
      rw [hv] at h
      rcases List.mem_cons.mp h with h' | h'
      · subst h'
        exact visit_inv (rel ++ [e.1]) e.2 _ hv
      · exact visitEntries_inv rel rest t h'
    | none =>
      rw [hv] at h
      exact visitEntries_inv rel rest t h
end

/-- C6: every tree the scan produces has, at every level, children sorted by
relative path (byte-wise lexicographic), contains no node of the reserved
assets directory `images`, and contains no file leaf that is a directory's
own index file `README.md`. -/
theorem c6_scan_invariants (fs : FSNode) (t : WikiTree)
    (h : get_wiki_tree fs = some t) :
    ∀ n ∈ nodesOf t, childrenSortedAt n ∧ notAssetsNode n ∧ notIndexLeaf n :=
  visit_inv [] fs t h

/-- Witness for C6: scanning a concrete root with unsorted entries, an
`images` directory and a root `README.md` yields the sorted, filtered tree,
and the invariants hold at its root. -/
theorem c6_witness :
    childrenSortedAt (WikiTree.dir [] [WikiTree.file ["a.md"], WikiTree.file ["b.md"]]) ∧
      notAssetsNode (WikiTree.dir [] [WikiTree.file ["a.md"], WikiTree.file ["b.md"]]) ∧
      notIndexLeaf (WikiTree.dir [] [WikiTree.file ["a.md"], WikiTree.file ["b.md"]]) :=
  c6_scan_invariants
    (FSNode.dir [("b.md", FSNode.file "x"), ("images", FSNode.dir []),
      ("README.md", FSNode.file "r"), ("a.md", FSNode.file "y")])
    (WikiTree.dir [] [WikiTree.file ["a.md"], WikiTree.file ["b.md"]])
    (by rfl)
    (WikiTree.dir [] [WikiTree.file ["a.md"], WikiTree.file ["b.md"]])
    (by simp [nodesOf])

/-! ## Navigation document rendering (`WikiState::update_summary`) -/

/-- Model of `Path::to_str` of a simple relative path. -/
def joinNames (p : List String) : String := String.intercalate "/" p

/-- Model of `k` spaces, the `{1:0$}` padding of the `write!` format. -/
def indentStr (k : Nat) : String := String.mk (List.replicate k ' ')

/-- Model of `str::replace("_", " ")` for the single-character pattern. -/
def underscoresToSpaces (s : String) : String :=
  String.mk (s.toList.map fun c => if c = '_' then ' ' else c)

/-- Model of `ancestors().count()` of a simple relative path given by its names. -/
def ancestorsCountNames (p : List String) : Nat := p.length + 1

/-- The line `build_summary` emits for a file node. The stem unwrap panics in
the source for an empty path, which the scan never produces; the model
returns the empty-string fallback there. -/
def fileLine (path : List String) : String :=
  indentStr ((ancestorsCountNames path - 2) * 2) ++ "- [" ++
    underscoresToSpaces ((path.getLast?.map stemOf).getD "") ++ "](" ++
    joinNames path ++ ")\n"

/-- The line `build_summary` emits for a non-root directory node
(`unwrap_or("README")` mirrors the source fallback). -/
def dirLine (path : List String) : String :=
  indentStr ((ancestorsCountNames path - 2) * 2) ++ "- [" ++
    underscoresToSpaces ((path.getLast?.map stemOf).getD "README") ++ "](" ++
    joinNames (path ++ ["README.md"]) ++ ")\n"

mutual
/-- Model of `WikiState::update_summary::build_summary`: append the serialization of
`tree` to the accumulator; `hd` is the `SUMMARY_HEAD` constant (its file is
not part of the sources, so the header content stays a parameter). -/
def build_summary (hd : String) : String → WikiTree → String
  | summary, .file path => summary ++ fileLine path
  | summary, .dir path children =>
    buildSummaryList hd
      (if path = [] then summary ++ hd else summary ++ dirLine path) children

/-- The `for child in children` loop of `build_summary`. -/
def buildSummaryList (hd : String) : String → List WikiTree → String
  | summary, [] => summary
  | summary, t :: ts => buildSummaryList hd (build_summary hd summary t) ts
end

/-- Model of `WikiState::update_summary`: re-scan, render, and persist `SUMMARY.md`
(the source unwraps the root scan, and maps a write failure to an error). -/
def update_summary (hd : String) (fs : FSNode) : Option FSNode :=
  match get_wiki_tree fs with
  | some tree => writeFile fs ["SUMMARY.md"] (build_summary hd "" tree)
  | none => none

/-- One rendered navigation line as §4.2 of the spec words it: indentation
`2 × (depth − 1)`, a bullet link, newline-terminated. -/
def navLine (depth : Nat) (label link : String) : String :=
  indentStr (2 * (depth - 1)) ++ "- [" ++ label ++ "](" ++ link ++ ")\n"

mutual
/-- The navigation serialization exactly as the spec words it, amended in one
place: a non-root directory is labeled by the *stem* of its directory name
(underscores replaced by spaces), not by the full directory name. -/
def specNavAmended (hd : String) : WikiTree → String
  | .file p =>
    navLine p.length (underscoresToSpaces ((p.getLast?.map stemOf).getD ""))
      (joinNames p)
  | .dir p cs =>
    (if p = [] then hd
     else navLine p.length
       (underscoresToSpaces ((p.getLast?.map stemOf).getD "README"))
       (joinNames (p ++ ["README.md"]))) ++ specNavAmendedList hd cs

def specNavAmendedList (hd : String) : List WikiTree → String
  | [] => ""
  | t :: ts => specNavAmended hd t ++ specNavAmendedList hd ts
end

mutual
/-- The navigation serialization with C7's original wording: a non-root
directory is labeled with the directory *name*, underscores replaced by
spaces. -/
def specNavClaim (hd : String) : WikiTree → String
  | .file p =>
    navLine p.length (underscoresToSpaces ((p.getLast?.map stemOf).getD ""))
      (joinNames p)
  | .dir p cs =>
    (if p = [] then hd
     else navLine p.length (underscoresToSpaces (p.getLast?.getD "README"))
       (joinNames (p ++ ["README.md"]))) ++ specNavClaimList hd cs

def specNavClaimList (hd : String) : List WikiTree → String
  | [] => ""
  | t :: ts => specNavClaim hd t ++ specNavClaimList hd ts
end

theorem strApp_assoc (a b c : String) : a ++ b ++ c = a ++ (b ++ c) := by
  cases a with
  | mk la =>
    cases b with
    | mk lb =>
      cases c with
      | mk lc =>
        show String.mk (la ++ lb ++ lc) = String.mk (la ++ (lb ++ lc))
        rw [List.append_assoc]

mutual
theorem build_summary_shift : ∀ (hd acc : String) (t : WikiTree),
    build_summary hd acc t = acc ++ specNavAmended hd t
  | hd, acc, .file p => by
    unfold build_summary specNavAmended
    unfold fileLine navLine ancestorsCountNames
    have hlen : p.length + 1 - 2 = p.length - 1 := by omega
    rw [hlen, Nat.mul_comm]
  | hd, acc, .dir p cs => by
    unfold build_summary specNavAmended
    rw [buildSummaryList_shift hd _ cs]
    by_cases hp : p = []
    · rw [if_pos hp, if_pos hp, strApp_assoc]
    · rw [if_neg hp, if_neg hp, strApp_assoc]
      unfold dirLine navLine ancestorsCountNames
      have hlen : p.length + 1 - 2 = p.length - 1 := by omega
      rw [hlen, Nat.mul_comm]

theorem buildSummaryList_shift : ∀ (hd acc : String) (ts : List WikiTree),
    buildSummaryList hd acc ts = acc ++ specNavAmendedList hd ts
  | hd, acc, [] => by
    unfold buildSummaryList specNavAmendedList
    rw [String.append_empty]
  | hd, acc, t :: ts => by
    unfold buildSummaryList specNavAmendedList
    rw [buildSummaryList_shift hd _ ts, build_summary_shift hd acc t, strApp_assoc]
end

/-- C7 (amended): rendering the navigation document is exactly the pre-order
serialization the spec describes — header block for the root, one
`2 × (depth − 1)`-indented, newline-terminated link line per non-root node —
with directory labels taken from the directory name's stem. -/
theorem c7_navigation_rendering (hd : String) (t : WikiTree) :
    build_summary hd "" t = specNavAmended hd t := by
  rw [build_summary_shift hd "" t, String.empty_append]

/-- Counterexample to C7 as stated: for a directory named `a.b` the source
labels the line with the name's stem `a`, not the directory name `a.b`. -/
theorem c7_counterexample :
    build_summary "" "" (WikiTree.dir [] [WikiTree.dir ["a.b"] []]) ≠
      specNavClaim "" (WikiTree.dir [] [WikiTree.dir ["a.b"] []]) := by
  decide

/-! ## Mutation pipeline (`WikiState::serve` and helpers) -/

/-- Model of `config::User`. -/
structure User where
  username : String
  password : String
deriving DecidableEq, Repr

/-- Model of `config::MDWIKI_USER`, the fixed system identity of the bootstrap
commit. -/
def MDWIKI_USER : User := { username := "mdwiki", password := "" }

/-- One git commit of the modelled history; `parent` is the index of the
parent commit in the history list (`none` only for a root commit). -/
structure Commit where
  author : String
  email : String
  message : String
  parent : Option Nat
deriving DecidableEq, Repr

/-- Model of `WikiState::commit`: stage all working-tree changes and append a commit
whose parent is the current head when one exists, signed with the user's
name and the fixed service email. -/
def commit (repo : List Commit) (user : User) (message : String) : List Commit :=
  repo ++ [{ author := user.username, email := "mdwiki@example.com",
             message := message,
             parent := if repo.isEmpty then none else some (repo.length - 1) }]

/-- Trace of the observable pipeline effects, in execution order. -/
inductive Event where
  | wroteIndex (p : List String)
  | wroteContent (p : List String) (c : String)
  | wroteSummary
  | committed
  | rebuilt
deriving DecidableEq, Repr

/-- The mutable state the actor owns: the content root and the history. -/
structure WState where
  fs : FSNode
  repo : List Commit

/-- Fault injection for the stages whose failures come from outside the
filesystem model: the summary write, `get_book`/`commit`, and the mdbook
rebuild. -/
structure Faults where
  summaryFail : Bool
  commitFail : Bool
  buildFail : Bool
deriving DecidableEq, Repr

/-- The no-failure environment. -/
def noFaults : Faults := ⟨false, false, false⟩

/-- Model of `wiki::WikiRequest` (the one-shot reply slot is modelled by the reply in
the step's result). -/
inductive WikiRequest where
  | createFile (user : User) (file : WPath) (content : String)
  | editFile (user : User) (file : WPath) (content : String)

/-- All prefixes of a name list, shortest first. -/
def prefixesAsc : List String → List (List String)
  | [] => [[]]
  | a :: rest => [] :: (prefixesAsc rest).map (fun l => a :: l)

/-- Model of `file.ancestors()` over component names: the path and its parents —
i.e. all its prefixes — longest first, ending with the empty path. -/
def prefixesDesc (l : List String) : List (List String) :=
  (prefixesAsc l).reverse

/-- The ancestor directories the `create_file` loop visits: the loop calls
`ancestors.next()` once before iterating, so the file itself is skipped. -/
def ancestorDirs (names : List String) : List (List String) :=
  (prefixesDesc names).drop 1

/-- Model of `dir.file_stem().map(OsStr::to_str).flatten().unwrap_or("TODO")`. -/
def indexTitle (d : List String) : String :=
  (d.getLast?.map stemOf).getD "TODO"

/-- The ancestor-index loop of `create_file`: for every ancestor directory
lacking its `README.md`, synthesize `# <title>`. A write failure aborts the
loop (`some ()`), keeping the index files already written. -/
def writeIndexes : FSNode → List (List String) → FSNode × List Event × Option Unit
  | fs, [] => (fs, [], none)
  | fs, d :: rest =>
    if isFile fs (d ++ ["README.md"]) then writeIndexes fs rest
    else
      match writeFile fs (d ++ ["README.md"]) ("# " ++ indexTitle d) with
      | some fs2 =>
        let out := writeIndexes fs2 rest
        (out.1, .wroteIndex (d ++ ["README.md"]) :: out.2.1, out.2.2)
      | none => (fs, [], some ())

/-- Model of `WikiState::create_file`: validate, create missing parent directories,
synthesize missing ancestor indexes, then write the content. The third
component is the error reply when a stage failed (filesystem failures map to
`Error none`). -/
def create_file (fs : FSNode) (file : WPath) (content : String) :
    FSNode × List Event × Option WikiResponse :=
  match can_create fs file with
  | .OK _ =>
    match (if isDir fs (normals file).dropLast then some fs
           else mkdirAll fs (normals file).dropLast) with
    | none => (fs, [], some (.Error none))
    | some fs1 =>
      match writeIndexes fs1 (ancestorDirs (normals file)) with
      | (fs2, evs, some _) => (fs2, evs, some (.Error none))
      | (fs2, evs, none) =>
        match writeFile fs2 (normals file) content with
        | none => (fs2, evs, some (.Error none))
        | some fs3 => (fs3, evs ++ [.wroteContent (normals file) content], none)
  | r => (fs, [], some r)

/-- Model of `WikiState::edit_file`: validate then overwrite the content. -/
def edit_file (fs : FSNode) (file : WPath) (content : String) :
    FSNode × List Event × Option WikiResponse :=
  match can_edit fs file with
  | .OK _ =>
    match writeFile fs (normals file) content with
    | none => (fs, [], some (.Error none))
    | some fs2 => (fs2, [.wroteContent (normals file) content], none)
  | r => (fs, [], some r)

/-- The commit-and-rebuild tail shared by the post-create and post-edit
hooks (`get_book` failures are folded into the commit fault). -/
def commitAndBuild (flt : Faults) (st : WState) (user : User) (msg : String)
    (evs : List Event) : WState × List Event × WikiResponse :=
  if flt.commitFail then (st, evs, .Error none)
  else
    if flt.buildFail then
      ({ st with repo := commit st.repo user msg }, evs ++ [.committed], .Error none)
    else
      ({ st with repo := commit st.repo user msg },
        evs ++ [.committed, .rebuilt], .OK none)

/-- Model of `WikiState::on_created`: update the summary, commit `Create <path>`,
rebuild. -/
def on_created (flt : Faults) (hd : String) (st : WState) (user : User)
    (file : WPath) (evs : List Event) : WState × List Event × WikiResponse :=
  if flt.summaryFail then (st, evs, .Error none)
  else
    match update_summary hd st.fs with
    | none => (st, evs, .Error none)
    | some fs2 =>
      commitAndBuild flt { st with fs := fs2 } user
        ("Create " ++ pathDisplay file) (evs ++ [.wroteSummary])

/-- Model of `WikiState::on_edited`: commit `Edit <path>` and rebuild (the edit hook
performs no summary update). -/
def on_edited (flt : Faults) (st : WState) (user : User) (file : WPath)
    (evs : List Event) : WState × List Event × WikiResponse :=
  commitAndBuild flt st user ("Edit " ++ pathDisplay file) evs

/-- One iteration of the `WikiState::serve` loop: fully process one request
and send exactly one reply. -/
def serveOne (flt : Faults) (hd : String) (st : WState) :
    WikiRequest → WState × List Event × WikiResponse
  | .createFile user file content =>
    match create_file st.fs file content with
    | (fs2, evs, some err) => ({ st with fs := fs2 }, evs, err)
    | (fs2, evs, none) => on_created flt hd { st with fs := fs2 } user file evs
  | .editFile user file content =>
    match edit_file st.fs file content with
    | (fs2, evs, some err) => ({ st with fs := fs2 }, evs, err)
    | (fs2, evs, none) => on_edited flt { st with fs := fs2 } user file evs

/-- Model of `WikiState::serve`: drain the bounded mpsc queue in FIFO arrival order,
one request fully processed before the next. -/
def serveAll (flt : Faults) (hd : String) : WState → List WikiRequest →
    WState × List WikiResponse
  | st, [] => (st, [])
  | st, req :: rest =>
    let out := serveOne flt hd st req
    let tail := serveAll flt hd out.1 rest
    (tail.1, out.2.2 :: tail.2)

/-- The target component names of a request. -/
def WikiRequest.target : WikiRequest → List String
  | .createFile _ f _ => normals f
  | .editFile _ f _ => normals f

/-- The new content carried by a request. -/
def WikiRequest.newContent : WikiRequest → String
  | .createFile _ _ c => c
  | .editFile _ _ c => c

/-- The author of a request. -/
def WikiRequest.author : WikiRequest → User
  | .createFile u _ _ => u
  | .editFile u _ _ => u

/-- The validation the pipeline applies to a request. -/
def requestValidation (fs : FSNode) : WikiRequest → WikiResponse
  | .createFile _ f _ => can_create fs f
  | .editFile _ f _ => can_edit fs f

/-- The synthesized commit message of a request. -/
def requestMessage : WikiRequest → String
  | .createFile _ f _ => "Create " ++ pathDisplay f
  | .editFile _ f _ => "Edit " ++ pathDisplay f

/-- The content root just after `init_book` has written the default content
but before the first summary render: the `images` directory and the default
`README.md` (the packaged default content is a parameter; it is not part of
the sources). -/
def initFS (readme : String) : FSNode :=
  .dir [("images", .dir []), ("README.md", .file readme)]

/-- A freshly bootstrapped state, as `init_book` leaves it: initial content
with its rendered summary, and the single bootstrap commit by the system
identity. -/
def bootState (hd readme : String) : WState :=
  { fs := (update_summary hd (initFS readme)).getD (initFS readme),
    repo := commit [] MDWIKI_USER "Initial mdwiki commit" }

/-! ## Filesystem frame lemmas -/

theorem findEntry_update_self : ∀ (es : List (String × FSNode)) (n : String) (x : FSNode),
    (findEntry es n).isSome → findEntry (updateEntry es n x) n = some x
  | [], n, x, h => by simp [findEntry] at h
  | e :: rest, n, x, h => by
    by_cases he : (e.1 == n) = true
    · simp only [updateEntry, if_pos he, findEntry, beq_self_eq_true, if_pos]
    · simp only [findEntry, if_neg he] at h
      simp only [updateEntry, if_neg he, findEntry, if_neg he]
      exact findEntry_update_self rest n x h

theorem findEntry_update_other : ∀ (es : List (String × FSNode)) (n m : String) (x : FSNode),
    m ≠ n → findEntry (updateEntry es n x) m = findEntry es m
  | [], _, _, _, _ => rfl
  | e :: rest, n, m, x, hmn => by
    by_cases he : (e.1 == n) = true
    · have he1 : e.1 = n := by simpa using he
      have h1 : ¬((n == m) = true) := by
        simp only [beq_iff_eq]
        exact fun hh => hmn hh.symm
      have h2 : ¬((e.1 == m) = true) := by
        simp only [beq_iff_eq, he1]
        exact fun hh => hmn hh.symm
      simp only [updateEntry, if_pos he, findEntry, if_neg h1, if_neg h2]
    · simp only [updateEntry, if_neg he, findEntry]
      by_cases hm : (e.1 == m) = true
      · rw [if_pos hm, if_pos hm]
      · rw [if_neg hm, if_neg hm]
        exact findEntry_update_other rest n m x hmn

theorem findEntry_append_of_none : ∀ (es : List (String × FSNode)) (n : String) (x : FSNode),
    findEntry es n = none → findEntry (es ++ [(n, x)]) n = some x
  | [], n, x, _ => by simp [findEntry]
  | e :: rest, n, x, h => by
    show findEntry (e :: (rest ++ [(n, x)])) n = some x
    unfold findEntry at h ⊢
    by_cases he : (e.1 == n) = true
    · rw [if_pos he] at h; cases h
    · rw [if_neg he] at h ⊢
      exact findEntry_append_of_none rest n x h

theorem findEntry_append_other : ∀ (es : List (String × FSNode)) (n m : String) (x : FSNode),
    m ≠ n → findEntry (es ++ [(n, x)]) m = findEntry es m
  | [], n, m, x, hmn => by
    have h1 : ¬((n == m) = true) := by
      simp only [beq_iff_eq]
      exact fun hh => hmn hh.symm
    show findEntry [(n, x)] m = none
    unfold findEntry
    rw [if_neg h1]
    rfl
  | e :: rest, n, m, x, hmn => by
    show findEntry (e :: (rest ++ [(n, x)])) m = findEntry (e :: rest) m
    unfold findEntry
    by_cases hm : (e.1 == m) = true
    · rw [if_pos hm, if_pos hm]
    · rw [if_neg hm, if_neg hm]
      exact findEntry_append_other rest n m x hmn

theorem readFile_dir_cons (es : List (String × FSNode)) (m : String) (ps : List String) :
    readFile (.dir es) (m :: ps) =
      match findEntry es m with
      | some sub => readFile sub ps
      | none => none := by
  have hl : lookupFS (.dir es) (m :: ps) =
      (match findEntry es m with
        | some sub => lookupFS sub ps
        | none => none) := rfl
  unfold readFile
  rw [hl]
  cases findEntry es m with
  | none => rfl
  | some sub => rfl

theorem isDir_dir_cons (es : List (String × FSNode)) (m : String) (ps : List String) :
    isDir (.dir es) (m :: ps) =
      match findEntry es m with
      | some sub => isDir sub ps
      | none => false := by
  have hl : lookupFS (.dir es) (m :: ps) =
      (match findEntry es m with
        | some sub => lookupFS sub ps
        | none => none) := rfl
  unfold isDir
  rw [hl]
  cases findEntry es m with
  | none => rfl
  | some sub => rfl

theorem writeFile_read_self : ∀ (fs : FSNode) (q : List String) (c : String) (fs' : FSNode),
    writeFile fs q c = some fs' → readFile fs' q = some c
  | .file _, _, _, _, h => by simp [writeFile] at h
  | .dir _, [], _, _, h => by simp [writeFile] at h
  | .dir es, [n], c, fs', h => by
    unfold writeFile at h
    cases hf : findEntry es n with
    | none =>
      rw [hf] at h
      injection h with h'
      subst h'
      rw [readFile_dir_cons, findEntry_append_of_none es n _ hf]
      rfl
    | some sub =>
      rw [hf] at h
      cases sub with
      | dir _ => cases h
      | file _ =>
        injection h with h'
        subst h'
        rw [readFile_dir_cons, findEntry_update_self es n _ (by rw [hf]; rfl)]
        rfl
  | .dir es, n :: p :: ps, c, fs', h => by
    unfold writeFile at h
    cases hf : findEntry es n with
    | none =>
      simp only [hf] at h
      cases h
    | some sub =>
      simp only [hf] at h
      cases hw : writeFile sub (p :: ps) c with
      | none =>
        simp only [hw] at h
        cases h
      | some sub2 =>
        simp only [hw] at h
        injection h with h'
        subst h'
        rw [readFile_dir_cons, findEntry_update_self es n _ (by rw [hf]; rfl)]
        exact writeFile_read_self sub (p :: ps) c sub2 hw

theorem writeFile_read_other :
    ∀ (fs : FSNode) (q : List String) (c : String) (fs' : FSNode),
      writeFile fs q c = some fs' → ∀ p, p ≠ q → readFile fs' p = readFile fs p
  | .file _, _, _, _, h, _, _ => by simp [writeFile] at h
  | .dir _, [], _, _, h, _, _ => by simp [writeFile] at h
  | .dir es, [n], c, fs', h, p, hp => by
    unfold writeFile at h
    cases hf : findEntry es n with
    | none =>
      rw [hf] at h
      injection h with h'
      subst h'
      cases p with
      | nil => rfl
      | cons m ps =>
        rw [readFile_dir_cons, readFile_dir_cons]
        by_cases hm : m = n
        · subst hm
          rw [findEntry_append_of_none es m _ hf, hf]
          cases ps with
          | nil => exact absurd rfl hp
          | cons a as => rfl
        · rw [findEntry_append_other es n m _ hm]
    | some sub =>
      rw [hf] at h
      cases sub with
      | dir _ => cases h
      | file d =>
        injection h with h'
        subst h'
        cases p with
        | nil => rfl
        | cons m ps =>
          rw [readFile_dir_cons, readFile_dir_cons]
          by_cases hm : m = n
          · subst hm
            rw [findEntry_update_self es m _ (by rw [hf]; rfl), hf]
            cases ps with
            | nil => exact absurd rfl hp
            | cons a as => rfl
          · rw [findEntry_update_other es n m _ hm]
  | .dir es, n :: q :: qs, c, fs', h, p, hp => by
    unfold writeFile at h
    cases hf : findEntry es n with
    | none =>
      simp only [hf] at h
      cases h
    | some sub =>
      simp only [hf] at h
      cases hw : writeFile sub (q :: qs) c with
      | none =>
        simp only [hw] at h
        cases h
      | some sub2 =>
        simp only [hw] at h
        injection h with h'
        subst h'
        cases p with
        | nil => rfl
        | cons m ps =>
          rw [readFile_dir_cons, readFile_dir_cons]
          by_cases hm : m = n
          · subst hm
            rw [findEntry_update_self es m _ (by rw [hf]; rfl), hf]
            have hps : ps ≠ q :: qs := by
              intro hh
              exact hp (by rw [hh])
            exact writeFile_read_other sub (q :: qs) c sub2 hw ps hps
          · rw [findEntry_update_other es n m _ hm]

theorem writeFile_isDir_other :
    ∀ (fs : FSNode) (q : List String) (c : String) (fs' : FSNode),
      writeFile fs q c = some fs' → ∀ p, p ≠ q → isDir fs' p = isDir fs p
  | .file _, _, _, _, h, _, _ => by simp [writeFile] at h
  | .dir _, [], _, _, h, _, _ => by simp [writeFile] at h
  | .dir es, [n], c, fs', h, p, hp => by
    unfold writeFile at h
    cases hf : findEntry es n with
    | none =>
      rw [hf] at h
      injection h with h'
      subst h'
      cases p with
      | nil => rfl
      | cons m ps =>
        rw [isDir_dir_cons, isDir_dir_cons]
        by_cases hm : m = n
        · subst hm
          rw [findEntry_append_of_none es m _ hf, hf]
          cases ps with
          | nil => exact absurd rfl hp
          | cons a as => rfl
        · rw [findEntry_append_other es n m _ hm]
    | some sub =>
      rw [hf] at h
      cases sub with
      | dir _ => cases h
      | file d =>
        injection h with h'
        subst h'
        cases p with
        | nil => rfl
        | cons m ps =>
          rw [isDir_dir_cons, isDir_dir_cons]
          by_cases hm : m = n
          · subst hm
            rw [findEntry_update_self es m _ (by rw [hf]; rfl), hf]
            cases ps with
            | nil => exact absurd rfl hp
            | cons a as => rfl
          · rw [findEntry_update_other es n m _ hm]
  | .dir es, n :: q :: qs, c, fs', h, p, hp => by
    unfold writeFile at h
    cases hf : findEntry es n with
    | none =>
      simp only [hf] at h
      cases h
    | some sub =>
      simp only [hf] at h
      cases hw : writeFile sub (q :: qs) c with
      | none =>
        simp only [hw] at h
        cases h
      | some sub2 =>
        simp only [hw] at h
        injection h with h'
        subst h'
        cases p with
        | nil => rfl
        | cons m ps =>
          rw [isDir_dir_cons, isDir_dir_cons]
          by_cases hm : m = n
          · subst hm
            rw [findEntry_update_self es m _ (by rw [hf]; rfl), hf]
            have hps : ps ≠ q :: qs := by
              intro hh
              exact hp (by rw [hh])
            exact writeFile_isDir_other sub (q :: qs) c sub2 hw ps hps
          · rw [findEntry_update_other es n m _ hm]

theorem writeFile_none_of_isDir : ∀ (fs : FSNode) (q : List String) (c : String),
    isDir fs q = true → writeFile fs q c = none
  | .file _, [], _, h => by simp [isDir, lookupFS] at h
  | .file _, _ :: _, _, h => by simp [isDir, lookupFS] at h
  | .dir _, [], _, _ => by simp [writeFile]
  | .dir es, [n], c, h => by
    rw [isDir_dir_cons] at h
    unfold writeFile
    cases hf : findEntry es n with
    | none => rw [hf] at h; cases h
    | some sub =>
      rw [hf] at h
      cases sub with
      | dir _ => rfl
      | file _ => simp [isDir, lookupFS] at h
  | .dir es, n :: q :: qs, c, h => by
    rw [isDir_dir_cons] at h
    unfold writeFile
    cases hf : findEntry es n with
    | none =>
      simp only [hf] at h
      cases h
    | some sub =>
      simp only [hf] at h ⊢
      rw [writeFile_none_of_isDir sub (q :: qs) c h]

theorem isFile_false_of_isDir (fs : FSNode) (q : List String)
    (h : isDir fs q = true) : isFile fs q = false := by
  unfold isDir at h
  unfold isFile
  cases hl : lookupFS fs q with
  | none => rfl
  | some node =>
    cases node with
    | dir _ => rfl
    | file _ => rw [hl] at h; cases h

theorem lookupFS_append : ∀ (fs : FSNode) (p q : List String),
    lookupFS fs (p ++ q) = (lookupFS fs p).bind (fun m => lookupFS m q)
  | fs, [], q => by simp [lookupFS]
  | .file _, n :: rest, q => by simp [lookupFS]
  | .dir es, n :: rest, q => by
    have hl : ∀ (l : List String), lookupFS (.dir es) (n :: l) =
        (match findEntry es n with
          | some sub => lookupFS sub l
          | none => none) := fun _ => rfl
    show lookupFS (.dir es) (n :: (rest ++ q)) = _
    rw [hl (rest ++ q), hl rest]
    cases findEntry es n with
    | none => rfl
    | some sub => exact lookupFS_append sub rest q

theorem isDir_dropLast (fs : FSNode) (l : List String) (h : isDir fs l = true) :
    isDir fs l.dropLast = true := by
  cases hl : l.getLast? with
  | none =>
    rw [List.getLast?_eq_none_iff] at hl
    subst hl
    exact h
  | some x =>
    have hsplit : l.dropLast ++ [x] = l := List.dropLast_append_getLast? x hl
    unfold isDir at h ⊢
    rw [← hsplit, lookupFS_append] at h
    cases hm : lookupFS fs l.dropLast with
    | none => rw [hm] at h; cases h
    | some m =>
      rw [hm] at h
      simp only [Option.some_bind] at h
      cases m with
      | file _ => simp [lookupFS] at h
      | dir _ => rfl

theorem writeIndexes_isDir : ∀ (ds : List (List String)) (fs : FSNode) (p : List String),
    isDir fs p = true → isDir (writeIndexes fs ds).1 p = true
  | [], fs, p, h => h
  | d :: rest, fs, p, h => by
    unfold writeIndexes
    by_cases hex : isFile fs (d ++ ["README.md"]) = true
    · rw [if_pos hex]
      exact writeIndexes_isDir rest fs p h
    · rw [if_neg hex]
      cases hw : writeFile fs (d ++ ["README.md"]) ("# " ++ indexTitle d) with
      | none => exact h
      | some fs2 =>
        have hne : p ≠ d ++ ["README.md"] := by
          intro hh
          subst hh
          rw [writeFile_none_of_isDir fs _ _ h] at hw
          cases hw
        have h2 : isDir fs2 p = true := by
          rw [writeFile_isDir_other fs _ _ fs2 hw p hne]
          exact h
        exact writeIndexes_isDir rest fs2 p h2

theorem writeIndexes_events : ∀ (ds : List (List String)) (fs : FSNode),
    ∀ ev ∈ (writeIndexes fs ds).2.1, ∃ q, ev = .wroteIndex q
  | [], fs, ev, h => by simp [writeIndexes] at h
  | d :: rest, fs, ev, h => by
    unfold writeIndexes at h
    by_cases hex : isFile fs (d ++ ["README.md"]) = true
    · rw [if_pos hex] at h
      exact writeIndexes_events rest fs ev h
    · rw [if_neg hex] at h
      cases hw : writeFile fs (d ++ ["README.md"]) ("# " ++ indexTitle d) with
      | none =>
        rw [hw] at h
        simp at h
      | some fs2 =>
        rw [hw] at h
        simp only [List.mem_cons] at h
        rcases h with h | h
        · exact ⟨d ++ ["README.md"], h⟩
        · exact writeIndexes_events rest fs2 ev h

/-! ## Pipeline helper lemmas -/

theorem normals_of_simple : ∀ (p : WPath), path_is_simple p = true →
    p = (normals p).map PComp.normal
  | [], _ => rfl
  | PComp.rootDir :: _, h => by simp [path_is_simple] at h
  | PComp.curDir :: _, h => by simp [path_is_simple] at h
  | PComp.parentDir :: _, h => by simp [path_is_simple] at h
  | PComp.normal s :: rest, h => by
    have hrest : path_is_simple rest = true := by
      simp only [path_is_simple, List.all_cons, Bool.and_eq_true] at h
      exact h.2
    have ih := normals_of_simple rest hrest
    have hn : normals (PComp.normal s :: rest) = s :: normals rest := by
      simp [normals]
    rw [hn, List.map_cons, ← ih]

theorem safe_path_ok_none (p : WPath) (m : Option String)
    (h : safe_path p = .OK m) : m = none := by
  unfold safe_path at h
  split_ifs at h
  injection h with h'
  exact h'.symm

theorem can_create_ok_none (fs : FSNode) (p : WPath) (m : Option String)
    (h : can_create fs p = .OK m) : m = none := by
  unfold can_create at h
  cases hsp : safe_path p with
  | OK mm =>
    have := safe_path_ok_none p mm hsp
    subst this
    simp only [hsp] at h
    split_ifs at h
    injection h with h'
    exact h'.symm
  | BadRequest mm =>
    simp only [hsp] at h
    cases h
  | NotAllowed mm =>
    simp only [hsp] at h
    cases h
  | NotFound mm =>
    simp only [hsp] at h
    cases h
  | Error mm =>
    simp only [hsp] at h
    cases h

theorem can_edit_ok_none (fs : FSNode) (p : WPath) (m : Option String)
    (h : can_edit fs p = .OK m) : m = none := by
  unfold can_edit at h
  cases hsp : safe_path p with
  | OK mm =>
    have := safe_path_ok_none p mm hsp
    subst this
    simp only [hsp] at h
    split_ifs at h
    injection h with h'
    exact h'.symm
  | BadRequest mm =>
    simp only [hsp] at h
    cases h
  | NotAllowed mm =>
    simp only [hsp] at h
    cases h
  | NotFound mm =>
    simp only [hsp] at h
    cases h
  | Error mm =>
    simp only [hsp] at h
    cases h

theorem can_create_ok_parts (fs : FSNode) (p : WPath)
    (h : can_create fs p = .OK none) :
    safe_path p = .OK none ∧ ancestorsCount p ≤ 5 ∧ isFile fs (normals p) = false := by
  unfold can_create at h
  cases hsp : safe_path p with
  | OK mm =>
    have := safe_path_ok_none p mm hsp
    subst this
    simp only [hsp] at h
    split_ifs at h with h1 h2
    exact ⟨rfl, by omega, by simpa using h2⟩
  | BadRequest mm =>
    simp only [hsp] at h
    cases h
  | NotAllowed mm =>
    simp only [hsp] at h
    cases h
  | NotFound mm =>
    simp only [hsp] at h
    cases h
  | Error mm =>
    simp only [hsp] at h
    cases h

theorem can_edit_ok_parts (fs : FSNode) (p : WPath)
    (h : can_edit fs p = .OK none) :
    safe_path p = .OK none ∧ isFile fs (normals p) = true := by
  unfold can_edit at h
  cases hsp : safe_path p with
  | OK mm =>
    have := safe_path_ok_none p mm hsp
    subst this
    simp only [hsp] at h
    split_ifs at h with h1
    exact ⟨rfl, by simpa using h1⟩
  | BadRequest mm =>
    simp only [hsp] at h
    cases h
  | NotAllowed mm =>
    simp only [hsp] at h
    cases h
  | NotFound mm =>
    simp only [hsp] at h
    cases h
  | Error mm =>
    simp only [hsp] at h
    cases h

theorem target_not_summary (p : WPath) (hs : safe_path p = .OK none) :
    normals p ≠ ["SUMMARY.md"] := by
  rcases (safe_path_ok_iff p).mp hs with ⟨h1, -, h3⟩
  intro hh
  have hp := normals_of_simple p h1
  rw [hh] at hp
  rw [hp] at h3
  have : is_reserved_name (List.map PComp.normal ["SUMMARY.md"]) = true := by decide
  rw [this] at h3
  cases h3

theorem commitAndBuild_ok (flt : Faults) (st : WState) (user : User)
    (msg : String) (evs : List Event)
    (h : (commitAndBuild flt st user msg evs).2.2 = .OK none) :
    commitAndBuild flt st user msg evs =
      ({ st with repo := commit st.repo user msg },
        evs ++ [.committed, .rebuilt], .OK none) := by
  unfold commitAndBuild at h ⊢
  split_ifs at h ⊢
  rfl

theorem on_created_ok (flt : Faults) (hd : String) (st : WState) (user : User)
    (file : WPath) (evs : List Event)
    (h : (on_created flt hd st user file evs).2.2 = .OK none) :
    ∃ fs2, update_summary hd st.fs = some fs2 ∧
      on_created flt hd st user file evs =
        ({ fs := fs2, repo := commit st.repo user ("Create " ++ pathDisplay file) },
          (evs ++ [.wroteSummary]) ++ [.committed, .rebuilt], .OK none) := by
  unfold on_created at h ⊢
  by_cases hsf : flt.summaryFail = true
  · rw [if_pos hsf] at h
    cases h
  · rw [if_neg hsf] at h ⊢
    cases hus : update_summary hd st.fs with
    | none =>
      simp only [hus] at h
      cases h
    | some fs2 =>
      simp only [hus] at h ⊢
      refine ⟨fs2, rfl, ?_⟩
      exact commitAndBuild_ok flt { st with fs := fs2 } user _ _ h

theorem on_edited_ok (flt : Faults) (st : WState) (user : User)
    (file : WPath) (evs : List Event)
    (h : (on_edited flt st user file evs).2.2 = .OK none) :
    on_edited flt st user file evs =
      ({ st with repo := commit st.repo user ("Edit " ++ pathDisplay file) },
        evs ++ [.committed, .rebuilt], .OK none) :=
  commitAndBuild_ok flt st user _ evs h

theorem serveOne_ok (flt : Faults) (hd : String) (st : WState) (req : WikiRequest)
    (h : (serveOne flt hd st req).2.2 = .OK none) :
    (serveOne flt hd st req).1.repo =
        st.repo ++ [{ author := req.author.username,
                      email := "mdwiki@example.com",
                      message := requestMessage req,
                      parent := if st.repo.isEmpty then none
                                else some (st.repo.length - 1) }] ∧
    (∃ e1, (serveOne flt hd st req).2.1 = e1 ++ [.committed, .rebuilt] ∧
        Event.wroteContent req.target req.newContent ∈ e1 ∧
        Event.committed ∉ e1 ∧ Event.rebuilt ∉ e1) ∧
    readFile (serveOne flt hd st req).1.fs req.target = some req.newContent := by
  cases req with
  | createFile user file content =>
    cases hv : can_create st.fs file with
    | OK m =>
      have hm := can_create_ok_none st.fs file m hv
      subst hm
      rcases can_create_ok_parts st.fs file hv with ⟨hsp, -, -⟩
      simp only [serveOne, create_file, hv] at h ⊢
      cases hmk : (if isDir st.fs (normals file).dropLast = true then some st.fs
          else mkdirAll st.fs (normals file).dropLast) with
      | none =>
        simp only [hmk] at h
        cases h
      | some fs1 =>
        simp only [hmk] at h ⊢
        rcases hw : writeIndexes fs1 (ancestorDirs (normals file)) with ⟨fs2, evsW, r⟩
        have hevs : ∀ ev ∈ evsW, ∃ q, ev = Event.wroteIndex q := by
          intro ev hev
          exact writeIndexes_events (ancestorDirs (normals file)) fs1 ev
            (by rw [hw]; exact hev)
        cases r with
        | some u =>
          simp only [hw] at h
          cases h
        | none =>
          simp only [hw] at h ⊢
          cases hwr : writeFile fs2 (normals file) content with
          | none =>
            simp only [hwr] at h
            cases h
          | some fs3 =>
            simp only [hwr] at h ⊢
            rcases on_created_ok flt hd _ user file _ h with ⟨fs4, hus, heq⟩
            rw [heq]
            refine ⟨rfl,
              ⟨(evsW ++ [Event.wroteContent (normals file) content]) ++
                  [Event.wroteSummary], rfl, ?_, ?_, ?_⟩, ?_⟩
            · simp [WikiRequest.target, WikiRequest.newContent]
            · intro hmem
              simp only [List.mem_append, List.mem_singleton] at hmem
              rcases hmem with (hmem | hmem) | hmem
              · rcases hevs _ hmem with ⟨q, hq⟩
                cases hq
              · cases hmem
              · cases hmem
            · intro hmem
              simp only [List.mem_append, List.mem_singleton] at hmem
              rcases hmem with (hmem | hmem) | hmem
              · rcases hevs _ hmem with ⟨q, hq⟩
                cases hq
              · cases hmem
              · cases hmem
            · show readFile fs4 (normals file) = some content
              unfold update_summary at hus
              cases ht : get_wiki_tree fs3 with
              | none =>
                simp only [ht] at hus
                cases hus
              | some tree =>
                simp only [ht] at hus
                rw [writeFile_read_other fs3 _ _ fs4 hus (normals file)
                  (target_not_summary file hsp)]
                exact writeFile_read_self fs2 _ content fs3 hwr
    | BadRequest mm =>
      simp only [serveOne, create_file, hv] at h
      cases h
    | NotAllowed mm =>
      simp only [serveOne, create_file, hv] at h
      cases h
    | NotFound mm =>
      simp only [serveOne, create_file, hv] at h
      cases h
    | Error mm =>
      simp only [serveOne, create_file, hv] at h
      cases h
  | editFile user file content =>
    cases hv : can_edit st.fs file with
    | OK m =>
      have hm := can_edit_ok_none st.fs file m hv
      subst hm
      simp only [serveOne, edit_file, hv] at h ⊢
      cases hwr : writeFile st.fs (normals file) content with
      | none =>
        simp only [hwr] at h
        cases h
      | some fs2 =>
        simp only [hwr] at h ⊢
        have heq := on_edited_ok flt _ user file _ h
        rw [heq]
        refine ⟨rfl, ⟨[Event.wroteContent (normals file) content], rfl, ?_, ?_, ?_⟩, ?_⟩
        · simp [WikiRequest.target, WikiRequest.newContent]
        · intro hmem
          simp only [List.mem_singleton] at hmem
          cases hmem
        · intro hmem
          simp only [List.mem_singleton] at hmem
          cases hmem
        · exact writeFile_read_self st.fs _ content fs2 hwr
    | BadRequest mm =>
      simp only [serveOne, edit_file, hv] at h
      cases h
    | NotAllowed mm =>
      simp only [serveOne, edit_file, hv] at h
      cases h
    | NotFound mm =>
      simp only [serveOne, edit_file, hv] at h
      cases h
    | Error mm =>
      simp only [serveOne, edit_file, hv] at h
      cases h

/-- C3: every successful mutation appends exactly one commit, signed with the
requesting user's name and the fixed service email, whose parent is the
current head commit when one exists; in the effect trace the commit happens
after the content write and before the rebuild. -/
theorem c3_commit_per_mutation (flt : Faults) (hd : String) (st : WState)
    (req : WikiRequest) (h : (serveOne flt hd st req).2.2 = .OK none) :
    (serveOne flt hd st req).1.repo =
        st.repo ++ [{ author := req.author.username,
                      email := "mdwiki@example.com",
                      message := requestMessage req,
                      parent := if st.repo.isEmpty then none
                                else some (st.repo.length - 1) }] ∧
    (∃ e1, (serveOne flt hd st req).2.1 = e1 ++ [.committed, .rebuilt] ∧
        Event.wroteContent req.target req.newContent ∈ e1 ∧
        Event.committed ∉ e1 ∧ Event.rebuilt ∉ e1) :=
  ⟨(serveOne_ok flt hd st req h).1, (serveOne_ok flt hd st req h).2.1⟩

/-- The request of the C3 witness run. -/
def c3req : WikiRequest :=
  .createFile ⟨"alice", "pw"⟩ [PComp.normal "notes", PComp.normal "page.md"] "Hello"

/-- Witness for C3: a concrete successful create on a bootstrapped wiki. -/
theorem c3_witness :
    (serveOne noFaults "HD" (bootState "HD" "RM") c3req).1.repo =
        (bootState "HD" "RM").repo ++
          [{ author := c3req.author.username,
             email := "mdwiki@example.com",
             message := requestMessage c3req,
             parent := if (bootState "HD" "RM").repo.isEmpty then none
                       else some ((bootState "HD" "RM").repo.length - 1) }] ∧
    (∃ e1, (serveOne noFaults "HD" (bootState "HD" "RM") c3req).2.1 =
        e1 ++ [.committed, .rebuilt] ∧
        Event.wroteContent c3req.target c3req.newContent ∈ e1 ∧
        Event.committed ∉ e1 ∧ Event.rebuilt ∉ e1) :=
  c3_commit_per_mutation noFaults "HD" (bootState "HD" "RM") c3req (by decide)

/-- C4: a validation failure leaves all state unchanged — an edit of a
missing file replies `NotFound` with no writes and no commits, and a create
of an existing file replies `BadRequest` with no writes and no commits
(hence the existing content is untouched). -/
theorem c4_validation_failure_no_effects (flt : Faults) (hd : String)
    (st : WState) (user : User) (p : WPath) (content : String) :
    ((safe_path p = .OK none → isFile st.fs (normals p) = false →
        ∃ m, serveOne flt hd st (WikiRequest.editFile user p content) =
          (st, [], .NotFound (some m)))) ∧
    ((safe_path p = .OK none → ancestorsCount p ≤ 5 →
        isFile st.fs (normals p) = true →
        ∃ m, serveOne flt hd st (WikiRequest.createFile user p content) =
          (st, [], .BadRequest (some m)))) := by
  constructor
  · intro hsafe hmiss
    have hce : can_edit st.fs p =
        .NotFound (some ("No file named " ++ pathDisplay p)) := by
      unfold can_edit
      rw [hsafe, hmiss]
      rfl
    refine ⟨"No file named " ++ pathDisplay p, ?_⟩
    simp only [serveOne, edit_file, hce]
  · intro hsafe hdepth hexist
    have hcc : can_create st.fs p =
        .BadRequest (some ("File " ++ pathDisplay p ++ " already exists")) := by
      unfold can_create
      rw [hsafe]
      rw [if_neg (by omega), hexist]
      rfl
    refine ⟨"File " ++ pathDisplay p ++ " already exists", ?_⟩
    simp only [serveOne, create_file, hcc]

/-- Witness for C4: scenario 2 (edit of the missing `missing.md`) and
scenario 3 (create of the existing `README.md`) on a bootstrapped wiki. -/
theorem c4_witness :
    (∃ m, serveOne noFaults "HD" (bootState "HD" "RM")
        (WikiRequest.editFile ⟨"alice", "pw"⟩ [PComp.normal "missing.md"] "x") =
      (bootState "HD" "RM", [], .NotFound (some m))) ∧
    (∃ m, serveOne noFaults "HD" (bootState "HD" "RM")
        (WikiRequest.createFile ⟨"alice", "pw"⟩ [PComp.normal "README.md"] "x") =
      (bootState "HD" "RM", [], .BadRequest (some m))) :=
  ⟨(c4_validation_failure_no_effects noFaults "HD" (bootState "HD" "RM")
      ⟨"alice", "pw"⟩ [PComp.normal "missing.md"] "x").1 (by decide) (by decide),
   (c4_validation_failure_no_effects noFaults "HD" (bootState "HD" "RM")
      ⟨"alice", "pw"⟩ [PComp.normal "README.md"] "x").2 (by decide) (by decide)
      (by decide)⟩

theorem wroteIndex_only {evsW : List Event}
    (hevs : ∀ ev ∈ evsW, ∃ q, ev = .wroteIndex q) :
    Event.committed ∉ evsW ∧ Event.rebuilt ∉ evsW ∧
      ∀ p c, Event.wroteContent p c ∉ evsW := by
  refine ⟨?_, ?_, ?_⟩
  · intro hmem
    rcases hevs _ hmem with ⟨q, hq⟩
    cases hq
  · intro hmem
    rcases hevs _ hmem with ⟨q, hq⟩
    cases hq
  · intro p c hmem
    rcases hevs _ hmem with ⟨q, hq⟩
    cases hq

theorem commitAndBuild_c5 (flt : Faults) (stf : WState) (user : User)
    (msg : String) (evs : List Event)
    (hnc : Event.committed ∉ evs) (hnr : Event.rebuilt ∉ evs) :
    ((commitAndBuild flt stf user msg evs).2.2 = .OK none ∨
      (commitAndBuild flt stf user msg evs).2.2 = .Error none) ∧
    ((commitAndBuild flt stf user msg evs).2.2 = .Error none →
      Event.rebuilt ∉ (commitAndBuild flt stf user msg evs).2.1) ∧
    ((commitAndBuild flt stf user msg evs).1.fs = stf.fs) ∧
    (Event.committed ∉ (commitAndBuild flt stf user msg evs).2.1 →
      (commitAndBuild flt stf user msg evs).1.repo = stf.repo) ∧
    (flt.commitFail = true →
      Event.committed ∉ (commitAndBuild flt stf user msg evs).2.1 ∧
      (commitAndBuild flt stf user msg evs).1.repo = stf.repo) := by
  unfold commitAndBuild
  by_cases hcf : flt.commitFail = true
  · rw [if_pos hcf]
    exact ⟨Or.inr rfl, fun _ => hnr, rfl, fun _ => rfl, fun _ => ⟨hnc, rfl⟩⟩
  · rw [if_neg hcf]
    by_cases hbf : flt.buildFail = true
    · rw [if_pos hbf]
      refine ⟨Or.inr rfl, ?_, rfl, ?_, ?_⟩
      · intro _ hmem
        simp only [List.mem_append, List.mem_singleton] at hmem
        rcases hmem with hmem | hmem
        · exact hnr hmem
        · cases hmem
      · intro hnotin
        exfalso
        apply hnotin
        simp
      · intro hc
        exact absurd hc hcf
    · rw [if_neg hbf]
      refine ⟨Or.inl rfl, ?_, rfl, ?_, ?_⟩
      · intro he
        cases he
      · intro hnotin
        exfalso
        apply hnotin
        simp
      · intro hc
        exact absurd hc hcf

theorem on_created_c5 (flt : Faults) (hd : String) (stf : WState) (user : User)
    (file : WPath) (evs : List Event)
    (hnc : Event.committed ∉ evs) (hnr : Event.rebuilt ∉ evs) :
    ((on_created flt hd stf user file evs).2.2 = .OK none ∨
      (on_created flt hd stf user file evs).2.2 = .Error none) ∧
    ((on_created flt hd stf user file evs).2.2 = .Error none →
      Event.rebuilt ∉ (on_created flt hd stf user file evs).2.1) ∧
    (∀ p, p ≠ ["SUMMARY.md"] →
      readFile (on_created flt hd stf user file evs).1.fs p = readFile stf.fs p) ∧
    (Event.committed ∉ (on_created flt hd stf user file evs).2.1 →
      (on_created flt hd stf user file evs).1.repo = stf.repo) ∧
    (flt.commitFail = true →
      Event.committed ∉ (on_created flt hd stf user file evs).2.1 ∧
      (on_created flt hd stf user file evs).1.repo = stf.repo) := by
  unfold on_created
  by_cases hsf : flt.summaryFail = true
  · rw [if_pos hsf]
    exact ⟨Or.inr rfl, fun _ => hnr, fun p _ => rfl, fun _ => rfl, fun _ => ⟨hnc, rfl⟩⟩
  · rw [if_neg hsf]
    cases hus : update_summary hd stf.fs with
    | none =>
      exact ⟨Or.inr rfl, fun _ => hnr, fun p _ => rfl, fun _ => rfl, fun _ => ⟨hnc, rfl⟩⟩
    | some fs2 =>
      have hframe : ∀ p, p ≠ ["SUMMARY.md"] → readFile fs2 p = readFile stf.fs p := by
        intro p hp
        unfold update_summary at hus
        cases ht : get_wiki_tree stf.fs with
        | none =>
          simp only [ht] at hus
          cases hus
        | some tree =>
          simp only [ht] at hus
          exact writeFile_read_other stf.fs _ _ fs2 hus p hp
      have hnc2 : Event.committed ∉ evs ++ [Event.wroteSummary] := by
        intro hmem
        simp only [List.mem_append, List.mem_singleton] at hmem
        rcases hmem with hmem | hmem
        · exact hnc hmem
        · cases hmem
      have hnr2 : Event.rebuilt ∉ evs ++ [Event.wroteSummary] := by
        intro hmem
        simp only [List.mem_append, List.mem_singleton] at hmem
        rcases hmem with hmem | hmem
        · exact hnr hmem
        · cases hmem
      have hcb := commitAndBuild_c5 flt { stf with fs := fs2 } user
        ("Create " ++ pathDisplay file) (evs ++ [.wroteSummary]) hnc2 hnr2
      refine ⟨hcb.1, hcb.2.1, ?_, hcb.2.2.2.1, hcb.2.2.2.2⟩
      intro p hp
      rw [hcb.2.2.1]
      exact hframe p hp

/-- C5: for any fault configuration, once validation passed, the step either
fully succeeds or surfaces exactly one `Error none` (InternalError); an error
means the rebuild never completed; a performed content write is never rolled
back; the history only changes when the commit stage ran; and a commit-stage
failure stops the pipeline with no commit and no history change. -/
theorem c5_failure_semantics (flt : Faults) (hd : String) (st : WState)
    (req : WikiRequest)
    (hval : (requestValidation st.fs req).is_ok = true) :
    ((serveOne flt hd st req).2.2 = .OK none ∨
      (serveOne flt hd st req).2.2 = .Error none) ∧
    ((serveOne flt hd st req).2.2 = .Error none →
      Event.rebuilt ∉ (serveOne flt hd st req).2.1) ∧
    (Event.wroteContent req.target req.newContent ∈ (serveOne flt hd st req).2.1 →
      readFile (serveOne flt hd st req).1.fs req.target = some req.newContent) ∧
    (Event.committed ∉ (serveOne flt hd st req).2.1 →
      (serveOne flt hd st req).1.repo = st.repo) ∧
    (flt.commitFail = true →
      Event.committed ∉ (serveOne flt hd st req).2.1 ∧
      (serveOne flt hd st req).1.repo = st.repo) := by
  cases req with
  | createFile user file content =>
    simp only [requestValidation] at hval
    cases hv : can_create st.fs file with
    | BadRequest mm =>
      rw [hv] at hval
      simp [WikiResponse.is_ok] at hval
    | NotAllowed mm =>
      rw [hv] at hval
      simp [WikiResponse.is_ok] at hval
    | NotFound mm =>
      rw [hv] at hval
      simp [WikiResponse.is_ok] at hval
    | Error mm =>
      rw [hv] at hval
      simp [WikiResponse.is_ok] at hval
    | OK m =>
      have hm := can_create_ok_none st.fs file m hv
      subst hm
      rcases can_create_ok_parts st.fs file hv with ⟨hsp, -, -⟩
      simp only [serveOne, create_file, hv]
      cases hmk : (if isDir st.fs (normals file).dropLast = true then some st.fs
          else mkdirAll st.fs (normals file).dropLast) with
      | none =>
        simp only [hmk]
        refine ⟨Or.inr (by trivial), ?_, ?_, fun _ => by trivial,
          fun _ => ⟨?_, by trivial⟩⟩
        · intro _ hmem
          simp at hmem
        · intro hmem
          simp at hmem
        · simp
      | some fs1 =>
        simp only [hmk]
        rcases hw : writeIndexes fs1 (ancestorDirs (normals file)) with ⟨fs2, evsW, r⟩
        have hevs : ∀ ev ∈ evsW, ∃ q, ev = Event.wroteIndex q := by
          intro ev hev
          exact writeIndexes_events _ fs1 ev (by rw [hw]; exact hev)
        rcases wroteIndex_only hevs with ⟨hnc, hnr, hnw⟩
        cases r with
        | some u =>
          simp only [hw]
          refine ⟨Or.inr (by trivial), fun _ => hnr, ?_, fun _ => by trivial,
            fun _ => ⟨hnc, by trivial⟩⟩
          intro hmem
          exact absurd hmem (hnw _ _)
        | none =>
          simp only [hw]
          cases hwr : writeFile fs2 (normals file) content with
          | none =>
            simp only [hwr]
            refine ⟨Or.inr (by trivial), fun _ => hnr, ?_, fun _ => by trivial,
              fun _ => ⟨hnc, by trivial⟩⟩
            intro hmem
            exact absurd hmem (hnw _ _)
          | some fs3 =>
            simp only [hwr]
            have hwc3 : readFile fs3 (normals file) = some content :=
              writeFile_read_self fs2 _ content fs3 hwr
            have hnc1 : Event.committed ∉
                evsW ++ [Event.wroteContent (normals file) content] := by
              intro hmem
              simp only [List.mem_append, List.mem_singleton] at hmem
              rcases hmem with hmem | hmem
              · exact hnc hmem
              · cases hmem
            have hnr1 : Event.rebuilt ∉
                evsW ++ [Event.wroteContent (normals file) content] := by
              intro hmem
              simp only [List.mem_append, List.mem_singleton] at hmem
              rcases hmem with hmem | hmem
              · exact hnr hmem
              · cases hmem
            have hoc := on_created_c5 flt hd { st with fs := fs3 } user file
              (evsW ++ [Event.wroteContent (normals file) content]) hnc1 hnr1
            refine ⟨hoc.1, hoc.2.1, ?_, hoc.2.2.2.1, hoc.2.2.2.2⟩
            intro _
            show readFile (on_created flt hd { st with fs := fs3 } user file
              (evsW ++ [Event.wroteContent (normals file) content])).1.fs
                (normals file) = some content
            rw [hoc.2.2.1 (normals file) (target_not_summary file hsp)]
            exact hwc3
  | editFile user file content =>
    simp only [requestValidation] at hval
    cases hv : can_edit st.fs file with
    | BadRequest mm =>
      rw [hv] at hval
      simp [WikiResponse.is_ok] at hval
    | NotAllowed mm =>
      rw [hv] at hval
      simp [WikiResponse.is_ok] at hval
    | NotFound mm =>
      rw [hv] at hval
      simp [WikiResponse.is_ok] at hval
    | Error mm =>
      rw [hv] at hval
      simp [WikiResponse.is_ok] at hval
    | OK m =>
      have hm := can_edit_ok_none st.fs file m hv
      subst hm
      simp only [serveOne, edit_file, hv]
      cases hwr : writeFile st.fs (normals file) content with
      | none =>
        simp only [hwr]
        refine ⟨Or.inr (by trivial), ?_, ?_, fun _ => by trivial,
          fun _ => ⟨?_, by trivial⟩⟩
        · intro _ hmem
          simp at hmem
        · intro hmem
          simp at hmem
        · simp
      | some fs2 =>
        simp only [hwr]
        have hnc1 : Event.committed ∉ [Event.wroteContent (normals file) content] := by
          intro hmem
          simp only [List.mem_singleton] at hmem
          cases hmem
        have hnr1 : Event.rebuilt ∉ [Event.wroteContent (normals file) content] := by
          intro hmem
          simp only [List.mem_singleton] at hmem
          cases hmem
        have hcb := commitAndBuild_c5 flt { st with fs := fs2 } user
          ("Edit " ++ pathDisplay file)
          [Event.wroteContent (normals file) content] hnc1 hnr1
        refine ⟨hcb.1, hcb.2.1, ?_, hcb.2.2.2.1, hcb.2.2.2.2⟩
        intro _
        show readFile (on_edited flt { st with fs := fs2 } user file
          [Event.wroteContent (normals file) content]).1.fs
            (normals file) = some content
        show readFile (commitAndBuild flt { st with fs := fs2 } user
          ("Edit " ++ pathDisplay file)
          [Event.wroteContent (normals file) content]).1.fs
            (normals file) = some content
        rw [hcb.2.2.1]
        exact writeFile_read_self st.fs _ content fs2 hwr

/-- C10: when a directory (not a regular file) sits at the target,
`can_create` still returns OK — the existence check only rejects regular
files — and the create pipeline then fails later, at the write stage, with
an internal error. -/
theorem c10_create_over_directory (flt : Faults) (hd : String) (st : WState)
    (user : User) (p : WPath) (content : String)
    (h1 : safe_path p = .OK none) (h2 : ancestorsCount p ≤ 5)
    (h3 : isDir st.fs (normals p) = true) :
    can_create st.fs p = .OK none ∧
    (serveOne flt hd st (WikiRequest.createFile user p content)).2.2 =
      .Error none := by
  have hfile : isFile st.fs (normals p) = false :=
    isFile_false_of_isDir st.fs (normals p) h3
  have hcc : can_create st.fs p = .OK none := by
    unfold can_create
    simp only [h1]
    rw [if_neg (by omega), hfile]
    rfl
  refine ⟨hcc, ?_⟩
  have hpar : isDir st.fs (normals p).dropLast = true :=
    isDir_dropLast st.fs (normals p) h3
  simp only [serveOne, create_file, hcc]
  have hif : (if isDir st.fs (normals p).dropLast = true then some st.fs
      else mkdirAll st.fs (normals p).dropLast) = some st.fs := if_pos hpar
  simp only [hif]
  rcases hw : writeIndexes st.fs (ancestorDirs (normals p)) with ⟨fs2, evsW, r⟩
  cases r with
  | some u =>
    simp only [hw]
  | none =>
    simp only [hw]
    have hdir2 : isDir fs2 (normals p) = true := by
      have := writeIndexes_isDir (ancestorDirs (normals p)) st.fs (normals p) h3
      rw [hw] at this
      exact this
    rw [writeFile_none_of_isDir fs2 (normals p) content hdir2]

/-- Witness for C10: creating `d.md` where `d.md` is a directory passes
validation and ends with an internal error from the write stage. -/
theorem c10_witness :
    can_create (FSNode.dir [("d.md", FSNode.dir [])]) [PComp.normal "d.md"] =
      .OK none ∧
    (serveOne noFaults "HD"
        { fs := FSNode.dir [("d.md", FSNode.dir [])], repo := [] }
        (WikiRequest.createFile ⟨"alice", "pw"⟩ [PComp.normal "d.md"] "x")).2.2 =
      .Error none :=
  c10_create_over_directory noFaults "HD"
    { fs := FSNode.dir [("d.md", FSNode.dir [])], repo := [] }
    ⟨"alice", "pw"⟩ [PComp.normal "d.md"] "x" (by decide) (by decide) (by decide)

/-- The request of the C5 witness run. -/
def c5req : WikiRequest :=
  .editFile ⟨"alice", "pw"⟩ [PComp.normal "README.md"] "x2"

/-- The fault environment of the C5 witness run: the commit stage fails. -/
def c5flt : Faults := ⟨false, true, false⟩

/-- Witness for C5: an edit whose commit stage fails, on a bootstrapped
wiki. -/
theorem c5_witness :
    ((serveOne c5flt "HD" (bootState "HD" "RM") c5req).2.2 = .OK none ∨
      (serveOne c5flt "HD" (bootState "HD" "RM") c5req).2.2 = .Error none) ∧
    ((serveOne c5flt "HD" (bootState "HD" "RM") c5req).2.2 = .Error none →
      Event.rebuilt ∉ (serveOne c5flt "HD" (bootState "HD" "RM") c5req).2.1) ∧
    (Event.wroteContent c5req.target c5req.newContent ∈
        (serveOne c5flt "HD" (bootState "HD" "RM") c5req).2.1 →
      readFile (serveOne c5flt "HD" (bootState "HD" "RM") c5req).1.fs
          c5req.target = some c5req.newContent) ∧
    (Event.committed ∉ (serveOne c5flt "HD" (bootState "HD" "RM") c5req).2.1 →
      (serveOne c5flt "HD" (bootState "HD" "RM") c5req).1.repo =
        (bootState "HD" "RM").repo) ∧
    (c5flt.commitFail = true →
      Event.committed ∉ (serveOne c5flt "HD" (bootState "HD" "RM") c5req).2.1 ∧
      (serveOne c5flt "HD" (bootState "HD" "RM") c5req).1.repo =
        (bootState "HD" "RM").repo) :=
  c5_failure_semantics c5flt "HD" (bootState "HD" "RM") c5req (by decide)

/-- C9: requests are processed strictly one at a time in FIFO arrival order;
each request gets exactly one reply, and when all N replies are OK the
history gains exactly N commits whose author/message sequence matches the
request sequence, in order, never interleaved or merged. -/
theorem c9_fifo_commit_order (flt : Faults) (hd : String) (st : WState)
    (reqs : List WikiRequest)
    (hall : ∀ resp ∈ (serveAll flt hd st reqs).2, resp = .OK none) :
    (serveAll flt hd st reqs).2.length = reqs.length ∧
    ∃ cs, (serveAll flt hd st reqs).1.repo = st.repo ++ cs ∧
      cs.map (fun c => (c.author, c.message)) =
        reqs.map (fun r => (r.author.username, requestMessage r)) := by
  induction reqs generalizing st with
  | nil => exact ⟨rfl, [], by simp [serveAll], rfl⟩
  | cons req rest ih =>
    have hhead : (serveOne flt hd st req).2.2 = .OK none := by
      apply hall
      show (serveOne flt hd st req).2.2 ∈ (serveOne flt hd st req).2.2 ::
        (serveAll flt hd (serveOne flt hd st req).1 rest).2
      exact List.mem_cons_self _ _
    have htail : ∀ resp ∈ (serveAll flt hd (serveOne flt hd st req).1 rest).2,
        resp = .OK none := by
      intro resp hr
      apply hall
      show resp ∈ (serveOne flt hd st req).2.2 ::
        (serveAll flt hd (serveOne flt hd st req).1 rest).2
      exact List.mem_cons_of_mem _ hr
    rcases ih (serveOne flt hd st req).1 htail with ⟨hlen, cs, hrepo, hmap⟩
    have hok := serveOne_ok flt hd st req hhead
    constructor
    · show ((serveOne flt hd st req).2.2 ::
          (serveAll flt hd (serveOne flt hd st req).1 rest).2).length =
        rest.length + 1
      simp [hlen]
    · refine ⟨{ author := req.author.username,
                email := "mdwiki@example.com",
                message := requestMessage req,
                parent := if st.repo.isEmpty then none
                          else some (st.repo.length - 1) } :: cs, ?_, ?_⟩
      · show (serveAll flt hd (serveOne flt hd st req).1 rest).1.repo = _
        rw [hrepo, hok.1]
        simp
      · simp only [List.map_cons, hmap]

/-- The request sequence of the C9 witness run. -/
def c9reqs : List WikiRequest :=
  [.createFile ⟨"alice", "pw"⟩ [PComp.normal "one.md"] "1",
   .createFile ⟨"bob", "pw"⟩ [PComp.normal "two.md"] "2"]

/-- Witness for C9: two creates for distinct paths both succeed and append
two commits in enqueue order. -/
theorem c9_witness :
    (serveAll noFaults "HD" (bootState "HD" "RM") c9reqs).2.length =
      c9reqs.length ∧
    ∃ cs, (serveAll noFaults "HD" (bootState "HD" "RM") c9reqs).1.repo =
        (bootState "HD" "RM").repo ++ cs ∧
      cs.map (fun c => (c.author, c.message)) =
        c9reqs.map (fun r => (r.author.username, requestMessage r)) :=
  c9_fifo_commit_order noFaults "HD" (bootState "HD" "RM") c9reqs (by decide)

/-- The pipeline step of the C8 scenario, with the reserved first component
amended to `notes`: the create on a freshly bootstrapped wiki (`hd` is the
summary header block, `readme` the default welcome content — both packaged
files outside the sources). -/
def c8out (hd readme : String) : WState × List Event × WikiResponse :=
  serveOne noFaults hd (bootState hd readme)
    (WikiRequest.createFile ⟨"alice", "pw"⟩
      [PComp.normal "notes", PComp.normal "page.md"] "Hello")

/-- Counterexample to C8 as stated: `CreatePage("new/page.md", "Hello")` on a
freshly bootstrapped wiki does not succeed — `new` is a reserved prefix (the
application's own URL namespace), so validation replies BadRequest and no
commit is created. -/
theorem c8_counterexample :
    (serveOne noFaults "HD" (bootState "HD" "RM")
        (WikiRequest.createFile ⟨"alice", "pw"⟩
          [PComp.normal "new", PComp.normal "page.md"] "Hello")).2.2 =
      .BadRequest
        (some "Path new/page.md contains reserved filenames/directories") ∧
    (serveOne noFaults "HD" (bootState "HD" "RM")
        (WikiRequest.createFile ⟨"alice", "pw"⟩
          [PComp.normal "new", PComp.normal "page.md"] "Hello")).1.repo =
      (bootState "HD" "RM").repo := by
  decide

/-- C8 (amended): `CreatePage("notes/page.md", "Hello")` on a freshly
bootstrapped wiki succeeds: the page holds "Hello", the missing ancestor
index `notes/README.md` is synthesized with the directory's title, the
navigation document gains an entry labeled `page`, exactly one commit is
appended (parented on the bootstrap commit), and the rebuild ran. -/
theorem c8_create_page_scenario (hd readme : String) :
    (c8out hd readme).2.2 = .OK none ∧
    readFile (c8out hd readme).1.fs ["notes", "page.md"] = some "Hello" ∧
    readFile (c8out hd readme).1.fs ["notes", "README.md"] = some "# notes" ∧
    readFile (c8out hd readme).1.fs ["SUMMARY.md"] =
      some (hd ++ "- [notes](notes/README.md)\n  - [page](notes/page.md)\n") ∧
    (c8out hd readme).1.repo = (bootState hd readme).repo ++
      [{ author := "alice",
         email := "mdwiki@example.com",
         message := "Create notes/page.md",
         parent := some 0 }] ∧
    Event.rebuilt ∈ (c8out hd readme).2.1 := by
  refine ⟨rfl, rfl, rfl, ?_, rfl, ?_⟩
  · have h1 : readFile (c8out hd readme).1.fs ["SUMMARY.md"] =
        some (build_summary hd ""
          (WikiTree.dir []
            [WikiTree.dir ["notes"] [WikiTree.file ["notes", "page.md"]]])) := rfl
    rw [h1, build_summary_shift, String.empty_append]
    have h2 : specNavAmended hd
        (WikiTree.dir []
          [WikiTree.dir ["notes"] [WikiTree.file ["notes", "page.md"]]]) =
        hd ++ specNavAmendedList hd
          [WikiTree.dir ["notes"] [WikiTree.file ["notes", "page.md"]]] := rfl
    rw [h2]
    have h3 : specNavAmendedList hd
        [WikiTree.dir ["notes"] [WikiTree.file ["notes", "page.md"]]] =
        "- [notes](notes/README.md)\n  - [page](notes/page.md)\n" := rfl
    rw [h3]
  · show Event.rebuilt ∈ [Event.wroteIndex ["notes", "README.md"],
      Event.wroteContent ["notes", "page.md"] "Hello", Event.wroteSummary,
      Event.committed, Event.rebuilt]
    simp

end Mdwiki
